import Mathlib

/-! # chmenegatti/cli-tool: the lookup pipeline of `main.go`

A shallow embedding of `main.go`: the record `GitHubUser`, the fetch
`App.fetchGitHubUser`, the renderer `App.updateUserInfo` and the three event
handlers registered by `App.setupUI`, together with the library calls they
make (`fmt.Sprintf`, `json.Unmarshal`, resty's `Get`, tview's `SetText` and
`Stop`).

Conventions.
* Go `string` is `String`; a response body is the text of its bytes.
* Go `int` is `Int`; the decoder only produces values of the signed 64-bit
  range (`strconv.ParseInt(_, 10, 64)`).
* A Go result pair `(*T, error)` is a pair of `Option`s, `none` being `nil`.
* The HTTP client is a parameter: `Env.Get` is what `a.client.R().Get`
  answers.  `Env.resty` is the client the program uses: it parses the
  address with `url.Parse` and only then asks the network.
* `encoding/json` is modelled as it is documented: the whole text is checked
  first (RFC 8259 grammar, nesting up to 10000), object keys select struct
  fields by exact match or else up to letter case, `null` leaves a field
  untouched, and a value of the wrong type is an error.  The parser is
  proved to accept exactly the texts of the grammar (`JsonText`).
* Calls on the outside world (`Get` on the HTTP client, `Stop` on the tview
  application) and the calls of `updateUserInfo` are recorded in a list next
  to the result; the state proper is the content of the widgets.
-/

namespace GithubCli

/-! ## Errors and `fmt.Sprintf` -/

/-- A non-nil Go `error` value, known by the text its `Error()` method returns. -/
structure GoError where
  /-- The result of the `Error()` method. -/
  Error : String
deriving DecidableEq, Repr

/-- An operand handed to `fmt.Sprintf`. -/
inductive Arg where
  | str (s : String)
  | int (n : Int)
  | err (e : GoError)
deriving DecidableEq, Repr

/-- The base-10 text `fmt` prints for a signed integer under `%d` and `%v`. -/
def fmtInteger (v : Int) : List Char :=
  if v < 0 then '-' :: Nat.toDigits 10 v.natAbs else Nat.toDigits 10 v.toNat

/-- The Go type name `fmt` prints in its diagnostics.  For an error value the
dynamic type is not known to the model; the program never reaches that case. -/
def Arg.typeName : Arg → List Char
  | .str _ => "string".toList
  | .int _ => "int".toList
  | .err _ => "error".toList

/-- The text of an operand under `%v`: a string verbatim, an integer in base
10, an error through its `Error()` method. -/
def Arg.value : Arg → List Char
  | .str s => s.toList
  | .int n => fmtInteger n
  | .err e => e.Error.toList

/-- The diagnostic `%!verb(type=value)` that `fmt` prints when a verb does
not fit its operand. -/
def badVerb (verb : Char) (a : Arg) : List Char :=
  '%' :: '!' :: verb :: '(' :: (a.typeName ++ '=' :: (a.value ++ [')']))

/-- One operand printed under one verb.  The verbs of `main.go` are `%s`,
`%d` and `%v`; any other verb is treated as unknown to `fmt`. -/
def printArg (verb : Char) (a : Arg) : List Char :=
  if verb = 'v' then a.value
  else if verb = 's' then
    match a with
    | .int _ => badVerb verb a
    | _ => a.value
  else if verb = 'd' then
    match a with
    | .int n => fmtInteger n
    | _ => badVerb verb a
  else badVerb verb a

/-- The `%!(EXTRA type=value, ...)` list for operands no verb consumed. -/
def extraArgs : List Arg → List Char
  | [] => []
  | [a] => a.typeName ++ '=' :: a.value
  | a :: rest => a.typeName ++ '=' :: (a.value ++ ',' :: ' ' :: extraArgs rest)

/-- The scanning loop of `fmt.Sprintf` (`doPrintf`) for formats without flags,
widths or argument indexes: literal text is copied, `%%` prints a percent
sign, `%c` consumes the next operand, a missing operand prints
`%!c(MISSING)`, a trailing `%` prints `%!(NOVERB)` and unused operands are
listed at the end. -/
def doPrintf : List Char → List Arg → List Char
  | [], [] => []
  | [], a :: rest => '%' :: '!' :: '(' :: ("EXTRA ".toList ++ extraArgs (a :: rest) ++ [')'])
  | [c], args =>
      if c = '%' then "%!(NOVERB)".toList ++ doPrintf [] args else c :: doPrintf [] args
  | c :: v :: fmt, args =>
      if c = '%' then
        if v = '%' then '%' :: doPrintf fmt args
        else
          match args with
          | [] => '%' :: '!' :: v :: ("(MISSING)".toList ++ doPrintf fmt [])
          | a :: rest => printArg v a ++ doPrintf fmt rest
      else c :: doPrintf (v :: fmt) args

/-- Go's `fmt.Sprintf`. -/
def Sprintf (format : String) (args : List Arg) : String :=
  String.mk (doPrintf format.toList args)

/-! ## The record and the application state -/

/-- The struct `GitHubUser` of `main.go`. -/
structure GitHubUser where
  Login : String
  Name : String
  Bio : String
  Location : String
  Followers : Int
  Following : Int
deriving DecidableEq, Repr

/-- The zero value of `GitHubUser`, as `var user GitHubUser` declares it. -/
def GitHubUser.zero : GitHubUser :=
  { Login := "", Name := "", Bio := "", Location := "", Followers := 0, Following := 0 }

/-- The widget `tview.InputField`, as far as the program uses it. -/
structure InputField where
  /-- The label set by `SetLabel`. -/
  label : String
  /-- The text the user has typed, read by `GetText`. -/
  text : String
deriving DecidableEq, Repr

/-- The widget `tview.TextView`, as far as the program uses it. -/
structure TextView where
  /-- The title set by `SetTitle`. -/
  title : String
  /-- The text set by `SetText`. -/
  text : String
deriving DecidableEq, Repr

/-- The widget `tview.Form`, as far as the program uses it. -/
structure Form where
  /-- The title set by `SetTitle`. -/
  title : String
  /-- The labels of the buttons added by `AddButton`, in order. -/
  buttons : List String
deriving DecidableEq, Repr

/-- The struct `App` of `main.go`: the three widgets.  Its fields `client`
and `app` are handles to the HTTP client and to the tview application; what
the client answers is the parameter `Env` of the functions below, and the
calls made on both are recorded as `Call`s. -/
structure App where
  form : Form
  textView : TextView
  inputField : InputField
deriving DecidableEq, Repr

/-- A run-time panic of the Go program. -/
inductive Panic where
  | nilDereference
deriving DecidableEq, Repr

/-- The method `InputField.GetText`. -/
def InputField.GetText (i : InputField) : String := i.text

/-- The method `TextView.SetText`: the view's text becomes `text`. -/
def TextView.SetText (t : TextView) (text : String) : TextView :=
  { t with text := text }

/-- The raw string literal of `updateUserInfo` (lines 53 to 62), which starts
and ends with a line break. -/
def userInfoTemplate : String :=
  "\nGithub User Information:\n\nLogin: %s\nName: %s\nBio: %s\nLocation: %s\nFollowers: %d\nFollowing: %d\n"

/-- The method `App.updateUserInfo`: formats the six fields of `*user` and
writes the text to the view.  A nil `user` panics at the first field read. -/
def updateUserInfo (a : App) (user : Option GitHubUser) : Except Panic App :=
  match user with
  | none => .error .nilDereference
  | some u =>
    let userInfo := Sprintf userInfoTemplate
      [.str u.Login, .str u.Name, .str u.Bio, .str u.Location, .int u.Followers, .int u.Following]
    .ok { a with textView := a.textView.SetText userInfo }

/-! ## `encoding/json`: the scanner -/

/-- A parsed JSON value.  A number keeps its literal text, as the decoder of
`encoding/json` does until it knows the Go type it must fill. -/
inductive JSON where
  | null
  | bool (b : Bool)
  | number (lit : List Char)
  | string (s : String)
  | array (elems : List JSON)
  | object (members : List (String × JSON))

/-- The double quote character. -/
def dquote : Char := Char.ofNat 34
/-- The backslash character. -/
def bslash : Char := Char.ofNat 92
/-- The opening brace. -/
def lbrace : Char := Char.ofNat 123
/-- The closing brace. -/
def rbrace : Char := Char.ofNat 125

/-- The scanner's `isSpace`: space, tab, carriage return, line feed. -/
def isSpace (c : Char) : Bool :=
  c.toNat = 32 || c.toNat = 9 || c.toNat = 13 || c.toNat = 10

/-- Skips insignificant whitespace. -/
def skipSpace (cs : List Char) : List Char := cs.dropWhile isSpace

/-- Value of a hexadecimal digit, as `getu4` reads it. -/
def hexVal (c : Char) : Option Nat :=
  if '0' ≤ c ∧ c ≤ '9' then some (c.toNat - 48)
  else if 'a' ≤ c ∧ c ≤ 'f' then some (c.toNat - 87)
  else if 'A' ≤ c ∧ c ≤ 'F' then some (c.toNat - 55)
  else none

/-- The four hexadecimal digits of a `\u` escape as a 16-bit code unit. -/
def getu4 (a b c d : Char) : Option Nat :=
  match hexVal a, hexVal b, hexVal c, hexVal d with
  | some x, some y, some z, some w => some (((x * 16 + y) * 16 + z) * 16 + w)
  | _, _, _, _ => none

/-- The character a one-letter escape stands for. -/
def simpleEscape (e : Char) : Option Char :=
  if e = dquote then some dquote
  else if e = bslash then some bslash
  else if e = '/' then some '/'
  else if e = 'b' then some (Char.ofNat 8)
  else if e = 'f' then some (Char.ofNat 12)
  else if e = 'n' then some (Char.ofNat 10)
  else if e = 'r' then some (Char.ofNat 13)
  else if e = 't' then some (Char.ofNat 9)
  else none

/-- One item of a string literal: a character, or the code unit of a `\u`
escape (which may be half of a surrogate pair). -/
inductive StrUnit where
  | chr (c : Char)
  | esc (n : Nat)
deriving DecidableEq, Repr

/-- Scans a string literal after its opening quote, up to and including the
closing quote.  Control characters below U+0020 and unknown escapes are
syntax errors. -/
def scanString : List Char → Option (List StrUnit × List Char)
  | [] => none
  | c :: cs =>
    if c = dquote then some ([], cs)
    else if c = bslash then
      match cs with
      | [] => none
      | e :: cs1 =>
        if e = 'u' then
          match cs1 with
          | h1 :: h2 :: h3 :: h4 :: cs2 =>
            match getu4 h1 h2 h3 h4 with
            | none => none
            | some n =>
              match scanString cs2 with
              | none => none
              | some (us, rest) => some (.esc n :: us, rest)
          | _ => none
        else
          match simpleEscape e with
          | none => none
          | some ch =>
            match scanString cs1 with
            | none => none
            | some (us, rest) => some (.chr ch :: us, rest)
    else if c.toNat < 32 then none
    else
      match scanString cs with
      | none => none
      | some (us, rest) => some (.chr c :: us, rest)

/-- The character of a lone `\u` escape: U+FFFD for half a surrogate pair. -/
def escChar (n : Nat) : Char :=
  if 0xD800 ≤ n ∧ n < 0xE000 then Char.ofNat 0xFFFD else Char.ofNat n

/-- The second pass of `unquote`: a high surrogate escape directly followed by
a low surrogate escape is one character, any other escape stands alone. -/
def decodeUnits : List StrUnit → List Char
  | [] => []
  | .chr c :: rest => c :: decodeUnits rest
  | .esc a :: rest =>
    let alone := escChar a :: decodeUnits rest
    match rest with
    | .esc b :: rest2 =>
      if 0xD800 ≤ a ∧ a < 0xDC00 ∧ 0xDC00 ≤ b ∧ b < 0xE000 then
        Char.ofNat ((a - 0xD800) * 1024 + (b - 0xDC00) + 0x10000) :: decodeUnits rest2
      else alone
    | _ => alone

/-- Splits off a leading run of decimal digits. -/
def spanDigits (cs : List Char) : List Char × List Char := cs.span Char.isDigit

/-- The optional fraction of a number: a dot and at least one digit. -/
def scanFraction (cs : List Char) : Option (List Char × List Char) :=
  match cs with
  | c :: r =>
    if c = '.' then
      match spanDigits r with
      | ([], _) => none
      | (ds, rest) => some (c :: ds, rest)
    else some ([], cs)
  | [] => some ([], cs)

/-- Splits off one leading character when it satisfies `p` (an optional
sign). -/
def scanSign (p : Char → Bool) (cs : List Char) : List Char × List Char :=
  match cs with
  | c :: r => if p c then ([c], r) else ([], cs)
  | [] => ([], cs)

/-- The optional exponent of a number: `e` or `E`, an optional sign and at
least one digit. -/
def scanExponent (cs : List Char) : Option (List Char × List Char) :=
  match cs with
  | c :: r =>
    if c = 'e' ∨ c = 'E' then
      match spanDigits (scanSign (fun s => s = '+' || s = '-') r).2 with
      | ([], _) => none
      | (ds, rest) => some (c :: ((scanSign (fun s => s = '+' || s = '-') r).1 ++ ds), rest)
    else some ([], cs)
  | [] => some ([], cs)

/-- The integer part of a number: a single `0`, or a digit from 1 to 9
followed by digits. -/
def scanIntPart (cs : List Char) : Option (List Char × List Char) :=
  match cs with
  | c :: r =>
    if c = '0' then some ([c], r)
    else if '1' ≤ c ∧ c ≤ '9' then some (c :: (spanDigits r).1, (spanDigits r).2)
    else none
  | [] => none

/-- Scans a number literal and returns its text and the remaining input. -/
def scanNumber (cs : List Char) : Option (List Char × List Char) :=
  match scanIntPart (scanSign (fun s => s = '-') cs).2 with
  | none => none
  | some (ip, cs2) =>
    match scanFraction cs2 with
    | none => none
    | some (fr, cs3) =>
      match scanExponent cs3 with
      | none => none
      | some (ex, rest) => some ((scanSign (fun s => s = '-') cs).1 ++ ip ++ fr ++ ex, rest)

/-- The scanner's `maxNestingDepth`. -/
def maxNestingDepth : Nat := 10000

/-- Removes the given word from the front of the input. -/
def expectWord (w : List Char) (cs : List Char) : Option (List Char) :=
  if w.isPrefixOf cs then some (cs.drop w.length) else none

mutual
/-- Parses one value at the front of the input (leading whitespace already
skipped) at nesting depth `depth`; `fuel` bounds the number of calls. -/
def parseValue : Nat → Nat → List Char → Option (JSON × List Char)
  | 0, _, _ => none
  | fuel + 1, depth, cs =>
    match cs with
    | [] => none
    | c :: rest =>
      if c = lbrace then
        if maxNestingDepth < depth + 1 then none
        else
          match skipSpace rest with
          | [] => none
          | c1 :: r1 =>
            if c1 = rbrace then some (.object [], r1)
            else
              match parseMembers fuel (depth + 1) (c1 :: r1) with
              | none => none
              | some (ms, r2) => some (.object ms, r2)
      else if c = '[' then
        if maxNestingDepth < depth + 1 then none
        else
          match skipSpace rest with
          | [] => none
          | c1 :: r1 =>
            if c1 = ']' then some (.array [], r1)
            else
              match parseElems fuel (depth + 1) (c1 :: r1) with
              | none => none
              | some (es, r2) => some (.array es, r2)
      else if c = dquote then
        match scanString rest with
        | none => none
        | some (us, r1) => some (.string (String.mk (decodeUnits us)), r1)
      else if c = '-' ∨ c.isDigit then
        match scanNumber cs with
        | none => none
        | some (lit, r1) => some (.number lit, r1)
      else if c = 't' then
        match expectWord "true".toList cs with
        | none => none
        | some r1 => some (.bool true, r1)
      else if c = 'f' then
        match expectWord "false".toList cs with
        | none => none
        | some r1 => some (.bool false, r1)
      else if c = 'n' then
        match expectWord "null".toList cs with
        | none => none
        | some r1 => some (.null, r1)
      else none
/-- Parses the members of an object after its opening brace, the input being
at a key, up to and including the closing brace. -/
def parseMembers : Nat → Nat → List Char → Option (List (String × JSON) × List Char)
  | 0, _, _ => none
  | fuel + 1, depth, cs =>
    match cs with
    | [] => none
    | c :: rest =>
      if c = dquote then
        match scanString rest with
        | none => none
        | some (us, r1) =>
          match skipSpace r1 with
          | [] => none
          | c2 :: r2 =>
            if c2 = ':' then
              match parseValue fuel depth (skipSpace r2) with
              | none => none
              | some (v, r3) =>
                match skipSpace r3 with
                | [] => none
                | c4 :: r4 =>
                  if c4 = ',' then
                    match parseMembers fuel depth (skipSpace r4) with
                    | none => none
                    | some (ms, r5) => some ((String.mk (decodeUnits us), v) :: ms, r5)
                  else if c4 = rbrace then some ([(String.mk (decodeUnits us), v)], r4)
                  else none
            else none
      else none
/-- Parses the elements of an array after its opening bracket, the input being
at a value, up to and including the closing bracket. -/
def parseElems : Nat → Nat → List Char → Option (List JSON × List Char)
  | 0, _, _ => none
  | fuel + 1, depth, cs =>
    match parseValue fuel depth cs with
    | none => none
    | some (v, r1) =>
      match skipSpace r1 with
      | [] => none
      | c2 :: r2 =>
        if c2 = ',' then
          match parseElems fuel depth (skipSpace r2) with
          | none => none
          | some (es, r3) => some (v :: es, r3)
        else if c2 = ']' then some ([v], r2)
        else none
end

/-- The syntax check and parse of a whole document (`checkValid`): one value
surrounded by optional whitespace.  The fuel given here is enough for every
input: see `parseJSON_fuel`. -/
def parseJSON (body : List Char) : Option JSON :=
  match parseValue (2 * body.length + 1) 0 (skipSpace body) with
  | none => none
  | some (v, rest) => if skipSpace rest = [] then some v else none

/-! ## `encoding/json`: filling a `GitHubUser` -/

/-- The two kinds of error `json.Unmarshal` returns here: a `*SyntaxError`
from the validity check, or the first `*UnmarshalTypeError` met while filling
the struct (`value` describes the JSON value, `field` is the key of the struct
field, empty at the top level). -/
inductive JsonError where
  | syntaxError
  | unmarshalType (value : String) (field : String)
deriving DecidableEq, Repr

/-- The six exported fields of `GitHubUser`. -/
inductive Field where
  | login | name | bio | location | followers | following
deriving DecidableEq, Repr

/-- The `json:"..."` tag of a field. -/
def Field.tag : Field → String
  | .login => "login"
  | .name => "name"
  | .bio => "bio"
  | .location => "location"
  | .followers => "followers"
  | .following => "following"

/-- The fields in declaration order. -/
def Field.all : List Field :=
  [.login, .name, .bio, .location, .followers, .following]

/-- Case folding of one character of a key: an ASCII letter folds to its
upper case; U+017F (long s) and U+212A (Kelvin sign) fold to `S` and `K`,
the only characters outside ASCII whose fold is an ASCII letter. -/
def foldRune (c : Char) : Char :=
  if 'a' ≤ c ∧ c ≤ 'z' then Char.ofNat (c.toNat - 32)
  else if c.toNat = 0x17F then 'S'
  else if c.toNat = 0x212A then 'K'
  else c

/-- Case folding of a key (`foldName`). -/
def foldName (s : String) : List Char := s.toList.map foldRune

/-- The struct field an object key selects: the field whose tag equals the
key, else the field whose tag equals it under case folding, else none. -/
def findField (key : String) : Option Field :=
  match Field.all.find? (fun f => f.tag = key) with
  | some f => some f
  | none => Field.all.find? (fun f => foldName f.tag = foldName key)

/-- The digits part of `strconv.ParseUint(s, 10, 64)`: at least one decimal
digit and nothing else.  The 64-bit bound is checked by the caller, whose own
bound is tighter. -/
def parseDigits (ds : List Char) : Option Nat :=
  if ds = [] ∨ ds.all Char.isDigit = false then none
  else some (ds.foldl (fun acc c => 10 * acc + (c.toNat - 48)) 0)

/-- The range check of `strconv.ParseInt(_, 10, 64)` on the magnitude `un`
read after the sign. -/
def signedInt64 (neg : Bool) (un : Nat) : Option Int :=
  if neg then (if 2 ^ 63 < un then none else some (-(un : Int)))
  else (if 2 ^ 63 ≤ un then none else some (un : Int))

/-- Go's `strconv.ParseInt(s, 10, 64)`: an optional sign, at least one
decimal digit and nothing else, the value within the signed 64-bit range. -/
def parseInt64 (s : List Char) : Option Int :=
  match s with
  | [] => none
  | c :: r =>
    if c = '-' then
      match parseDigits r with
      | none => none
      | some un => signedInt64 true un
    else if c = '+' then
      match parseDigits r with
      | none => none
      | some un => signedInt64 false un
    else
      match parseDigits s with
      | none => none
      | some un => signedInt64 false un

/-- Stores a JSON string into a field (`literalStore`, case of a quote). -/
def storeString (u : GitHubUser) (f : Field) (s : String) : Except JsonError GitHubUser :=
  match f with
  | .login => .ok { u with Login := s }
  | .name => .ok { u with Name := s }
  | .bio => .ok { u with Bio := s }
  | .location => .ok { u with Location := s }
  | .followers => .error (.unmarshalType "string" f.tag)
  | .following => .error (.unmarshalType "string" f.tag)

/-- Stores a JSON number into a field (`literalStore`, default case). -/
def storeNumber (u : GitHubUser) (f : Field) (lit : List Char) : Except JsonError GitHubUser :=
  match f with
  | .followers =>
    match parseInt64 lit with
    | some n => .ok { u with Followers := n }
    | none => .error (.unmarshalType ("number " ++ String.mk lit) f.tag)
  | .following =>
    match parseInt64 lit with
    | some n => .ok { u with Following := n }
    | none => .error (.unmarshalType ("number " ++ String.mk lit) f.tag)
  | _ => .error (.unmarshalType "number" f.tag)

/-- Stores the value of a member into the field its key selected: `null`
leaves the field as it is, a string or number is stored when the field has
that type, anything else is a type error. -/
def storeValue (u : GitHubUser) (f : Field) (v : JSON) : Except JsonError GitHubUser :=
  match v with
  | .null => .ok u
  | .string s => storeString u f s
  | .number lit => storeNumber u f lit
  | .bool _ => .error (.unmarshalType "bool" f.tag)
  | .array _ => .error (.unmarshalType "array" f.tag)
  | .object _ => .error (.unmarshalType "object" f.tag)

/-- The member loop of the decoder's `object` for a struct target: members are
taken in document order, a key selecting no field is skipped, and the first
type error is the error returned. -/
def decodeMembers : List (String × JSON) → GitHubUser → Except JsonError GitHubUser
  | [], u => .ok u
  | (key, v) :: rest, u =>
    match findField key with
    | none => decodeMembers rest u
    | some f =>
      match storeValue u f v with
      | .error e => .error e
      | .ok u1 => decodeMembers rest u1

/-- The call `json.Unmarshal(body, &user)` with `user` the zero `GitHubUser`:
the whole text is checked first, then the value is stored.  A top-level
`null` stores nothing; any other value that is not an object is a type
error. -/
def Unmarshal (body : String) : Except JsonError GitHubUser :=
  match parseJSON body.toList with
  | none => .error .syntaxError
  | some v =>
    match v with
    | .object ms => decodeMembers ms GitHubUser.zero
    | .null => .ok GitHubUser.zero
    | .bool _ => .error (.unmarshalType "bool" "")
    | .number _ => .error (.unmarshalType "number" "")
    | .string _ => .error (.unmarshalType "string" "")
    | .array _ => .error (.unmarshalType "array" "")

/-! ## The fetch and the handlers of `setupUI` -/

/-- What the program reads of a `*resty.Response`. -/
structure Response where
  /-- The HTTP status code; `main.go` never reads it. -/
  status : Nat
  /-- The result of `resp.Body()`. -/
  body : String
deriving DecidableEq, Repr

/-- The outside world of one handler run. -/
structure Env where
  /-- The answer of `a.client.R().Get(url)`: an error, or else a response. -/
  Get : String → Except GoError Response
  /-- The Go error value that stands for a decoding error; the text of its
  `Error()` is the library's and is not modelled. -/
  jsonError : JsonError → GoError

/-- A call the program makes that the properties below count: a call of
`a.client.R().Get` with the URL string it is given, a call of
`updateUserInfo`, or `a.app.Stop()`, which ends the event loop of the
application. -/
inductive Call where
  | httpGet (url : String)
  | updateUserInfo (user : Option GitHubUser)
  | appStop
deriving DecidableEq, Repr

/-- The URLs of the GET requests in a list of calls. -/
def requests : List Call → List String
  | [] => []
  | .httpGet url :: rest => url :: requests rest
  | .updateUserInfo _ :: rest => requests rest
  | .appStop :: rest => requests rest

/-- The result pair `(*GitHubUser, error)` of `fetchGitHubUser`, `none` being
`nil`, with the calls made. -/
structure FetchResult where
  user : Option GitHubUser
  err : Option GoError
  calls : List Call
deriving DecidableEq, Repr

/-- The call `a.client.R().Get(url)`: the client's answer for `url`, and the
record of the call with the argument it was given. -/
def clientGet (env : Env) (url : String) : Except GoError Response × List Call :=
  (env.Get url, [.httpGet url])

/-- The method `App.fetchGitHubUser`.  The calls it reports are those the
client call recorded. -/
def fetchGitHubUser (env : Env) (username : String) : FetchResult :=
  let url := Sprintf "https://api.github.com/users/%s" [.str username]
  let answer := clientGet env url
  match answer.1 with
  | .error err => { user := none, err := some err, calls := answer.2 }
  | .ok resp =>
    match Unmarshal resp.body with
    | .error err => { user := none, err := some (env.jsonError err), calls := answer.2 }
    | .ok user => { user := some user, err := none, calls := answer.2 }

/-- The state after a handler has run, with the calls it made. -/
structure Outcome where
  app : App
  calls : List Call
deriving DecidableEq, Repr

/-- The function given to `AddButton("Search", ...)` (lines 75 to 83). -/
def searchHandler (env : Env) (a : App) : Except Panic Outcome :=
  let username := a.inputField.GetText
  let r := fetchGitHubUser env username
  match r.err with
  | some err =>
    .ok { app := { a with textView := a.textView.SetText (Sprintf "Error: %v" [.err err]) },
          calls := r.calls }
  | none =>
    match updateUserInfo a r.user with
    | .error p => .error p
    | .ok a1 => .ok { app := a1, calls := r.calls ++ [.updateUserInfo r.user] }

/-- The function given to `AddButton("Quit", ...)` (lines 84 to 86). -/
def quitHandler (a : App) : Except Panic Outcome :=
  .ok { app := a, calls := [.appStop] }

/-- The type `tcell.Key`. -/
abbrev Key := Int

/-- The constant `tcell.KeyEnter` (the carriage return, 13). -/
def KeyEnter : Key := 13

/-- The function given to `SetDoneFunc` (lines 99 to 109). -/
def doneFunc (env : Env) (a : App) (key : Key) : Except Panic Outcome :=
  if key = KeyEnter then
    let username := a.inputField.GetText
    let r := fetchGitHubUser env username
    match r.err with
    | some err =>
      .ok { app := { a with textView := a.textView.SetText (Sprintf "Error: %v" [.err err]) },
            calls := r.calls }
    | none =>
      match updateUserInfo a r.user with
      | .error p => .error p
      | .ok a1 => .ok { app := a1, calls := r.calls ++ [.updateUserInfo r.user] }
  else .ok { app := a, calls := [] }

/-- The widgets as `setupUI` builds them, before any event. -/
def setupUI : App :=
  { form := { title := " Search Form ", buttons := ["Search", "Quit"] },
    textView := { title := " User Information ", text := "" },
    inputField := { label := "GitHub Username: ", text := "" } }

/-- The events the handlers of `setupUI` answer. -/
inductive Event where
  | search
  | done (key : Key)
  | quit
deriving DecidableEq, Repr

/-- One transition of the controller: the handler registered for the event. -/
def step (env : Env) (a : App) : Event → Except Panic Outcome
  | .search => searchHandler env a
  | .done key => doneFunc env a key
  | .quit => quitHandler a

/-- The display format of section 6 of the specification, written out for a
record: the text the renderer is specified to produce. -/
def displayText (u : GitHubUser) : String :=
  "\nGithub User Information:\n\nLogin: " ++ u.Login ++ "\nName: " ++ u.Name ++ "\nBio: " ++ u.Bio
    ++ "\nLocation: " ++ u.Location ++ "\nFollowers: " ++ toString u.Followers
    ++ "\nFollowing: " ++ toString u.Following ++ "\n"

/-- The text a lookup leaves in the view, as the specification words it: the
error line when the fetch failed, the display format of the record when it
succeeded. -/
def lookupText (r : FetchResult) : String :=
  match r.err, r.user with
  | some e, _ => "Error: " ++ e.Error
  | none, some u => displayText u
  | none, none => ""

/-- The state after the user has typed `s` into the input field. -/
def App.typed (a : App) (s : String) : App :=
  { a with inputField := { a.inputField with text := s } }

/-- A stand-in for the error values of `encoding/json`, used where an example
needs a concrete `Env`. -/
def sampleJsonError : JsonError → GoError
  | .syntaxError => { Error := "invalid JSON" }
  | .unmarshalType value field =>
    { Error := "json: cannot unmarshal " ++ value ++ " into field " ++ field }

/-- A network on which every request fails with the given message. -/
def Env.failing (msg : String) : Env :=
  { Get := fun _ => .error { Error := msg }, jsonError := sampleJsonError }

/-- A network that answers every request with the given status and body. -/
def Env.answering (status : Nat) (body : String) : Env :=
  { Get := fun _ => .ok { status := status, body := body }, jsonError := sampleJsonError }

/-- The record of the concrete scenario of section 8 of the specification. -/
def octocat : GitHubUser :=
  { Login := "octocat", Name := "The Octocat", Bio := "", Location := "San Francisco",
    Followers := 5000, Following := 9 }

/-- The response body of the concrete scenario of section 8. -/
def octocatBody : String :=
  "\x7b\"login\":\"octocat\",\"name\":\"The Octocat\",\"bio\":\"\",\"location\":\"San Francisco\",\"followers\":5000,\"following\":9\x7d"

/-- The body of a not-found answer. -/
def notFoundBody : String := "\x7b\"message\":\"Not Found\"\x7d"

/-! ## The HTTP client and `net/url` -/

/-- Go's `strings.Cut` at a one-character separator: the text before the first
separator, and the text after it when there is one. -/
def cutAt (sep : Char) (cs : List Char) : List Char × Option (List Char) :=
  (cs.takeWhile (fun c => c != sep),
   match cs.dropWhile (fun c => c != sep) with
   | [] => none
   | _ :: r => some r)

/-- The scanner's `stringContainsCTLByte`: a byte below 0x20, or 0x7f. -/
def hasCTL (cs : List Char) : Bool :=
  cs.any (fun c => c.toNat < 32 || c.toNat = 127)

/-- The check `unescape` of `net/url` makes on a path or a fragment: every `%`
is followed by two hexadecimal digits. -/
def validEscapes : List Char → Bool
  | [] => true
  | c :: cs =>
    if c = '%' then
      match cs with
      | h1 :: h2 :: r => (hexVal h1).isSome && (hexVal h2).isSome && validEscapes r
      | _ => false
    else validEscapes cs

/-- The pieces `url.Parse` splits an address into, as they are written in the
argument: scheme, host and path before the first `?`, and the query after it
when there is one.  The fragment after `#` is not part of a request.  From
these the client writes the request, escaping the path by the rules of
`net/url`, which are not modelled. -/
structure ParsedURL where
  base : String
  query : Option String
deriving DecidableEq, Repr

/-- Go's `url.Parse` on an address whose scheme and host are well formed (as
they are in every address `fetchGitHubUser` builds): the fragment is split off
at the first `#`; the rest may hold no control character; the path before the
first `?` and the fragment may hold no `%` that is not followed by two
hexadecimal digits; the query is taken as written.  `none` is a parse
error. -/
def urlParse (rawURL : String) : Option ParsedURL :=
  if hasCTL (cutAt '#' rawURL.toList).1 then none
  else if !validEscapes (cutAt '?' (cutAt '#' rawURL.toList).1).1 then none
  else if !validEscapes ((cutAt '#' rawURL.toList).2.getD []) then none
  else some
    { base := String.mk (cutAt '?' (cutAt '#' rawURL.toList).1).1,
      query := (cutAt '?' (cutAt '#' rawURL.toList).1).2.map String.mk }

/-- What resty's `Get(url)` does with its argument: it parses it with
`url.Parse` and returns the parse error without opening any exchange when that
fails; otherwise it opens the exchange with a GET for the parsed address and
returns what the network `net` answers to it.  The second component is the
address of the request it opened, if any. -/
def restyGet (net : ParsedURL → Except GoError Response) (urlError : String → GoError)
    (url : String) : Except GoError Response × Option ParsedURL :=
  match urlParse url with
  | none => (.error (urlError url), none)
  | some u => (net u, some u)

/-- The outside world when the client is resty over the network `net`. -/
def Env.resty (net : ParsedURL → Except GoError Response) (urlError : String → GoError)
    (jsonError : JsonError → GoError) : Env :=
  { Get := fun url => (restyGet net urlError url).1, jsonError := jsonError }

/-- A stand-in for the error `url.Parse` returns, used where an example needs
a concrete value. -/
def sampleUrlError (url : String) : GoError :=
  { Error := "parse " ++ url ++ ": invalid URL escape" }

/-- The text of the object `\x7b"x":[[...]],"login":"deep"\x7d` whose
member `x` is `n` arrays one inside the other. -/
def deepChars (n : Nat) : List Char :=
  lbrace :: dquote :: 'x' :: dquote :: ':' ::
    (List.replicate n '[' ++ (List.replicate n ']' ++ ",\"login\":\"deep\"\x7d".toList))

/-- A well-formed JSON object 10001 containers deep: its member `x` is 10000
arrays one inside the other, its member `login` is a string. -/
def deepBody : String := String.mk (deepChars 10000)

/-- The object `\x7b"followers":n\x7d` for an integer `n` written in base
10. -/
def followersBody (n : Int) : String :=
  String.mk (lbrace :: dquote :: ("followers".toList ++
    dquote :: ':' :: (fmtInteger n ++ [rbrace])))

/-! ## JSON text, as RFC 8259 defines it

The relations below read a text from its front: `R x cs rest` says that `cs`
starts with a text of `x` and that `rest` is what follows it. -/

/-- Optional whitespace: `cs` is `rest` after some spaces, tabs, carriage
returns and line feeds. -/
inductive Ws : List Char → List Char → Prop where
  | done (cs : List Char) : Ws cs cs
  | skip (c : Char) (cs rest : List Char) : isSpace c = true → Ws cs rest → Ws (c :: cs) rest

/-- The inside of a string literal, up to and including the closing quote: any
character from U+0020 on other than the quote and the backslash, a backslash
with one of the eight escape letters, or `\u` with four hexadecimal digits. -/
inductive StrBody : List StrUnit → List Char → List Char → Prop where
  | close (rest : List Char) : StrBody [] (dquote :: rest) rest
  | plain (c : Char) (us : List StrUnit) (cs rest : List Char) :
      32 ≤ c.toNat → c ≠ dquote → c ≠ bslash → StrBody us cs rest →
      StrBody (.chr c :: us) (c :: cs) rest
  | escape (e ch : Char) (us : List StrUnit) (cs rest : List Char) :
      simpleEscape e = some ch → StrBody us cs rest →
      StrBody (.chr ch :: us) (bslash :: e :: cs) rest
  | unicode (h1 h2 h3 h4 : Char) (n : Nat) (us : List StrUnit) (cs rest : List Char) :
      getu4 h1 h2 h3 h4 = some n → StrBody us cs rest →
      StrBody (.esc n :: us) (bslash :: 'u' :: h1 :: h2 :: h3 :: h4 :: cs) rest

/-- A run of decimal digits, at least one. -/
def IsDigits (ds : List Char) : Prop :=
  ds ≠ [] ∧ ∀ c ∈ ds, '0' ≤ c ∧ c ≤ '9'

/-- The integer part of a number: `0`, or a digit from 1 to 9 followed by any
digits. -/
def IsIntPart (ip : List Char) : Prop :=
  ip = ['0'] ∨ ∃ c ds, ip = c :: ds ∧ '1' ≤ c ∧ c ≤ '9' ∧ ∀ d ∈ ds, '0' ≤ d ∧ d ≤ '9'

/-- The optional fraction of a number: a dot and digits. -/
def IsFraction (fr : List Char) : Prop :=
  fr = [] ∨ ∃ ds, fr = '.' :: ds ∧ IsDigits ds

/-- The optional exponent of a number: `e` or `E`, an optional sign, digits. -/
def IsExponent (ex : List Char) : Prop :=
  ex = [] ∨ ∃ e sg ds, ex = e :: (sg ++ ds) ∧ (e = 'e' ∨ e = 'E') ∧
    (sg = [] ∨ sg = ['+'] ∨ sg = ['-']) ∧ IsDigits ds

/-- A number literal: an optional minus sign, an integer part, an optional
fraction and an optional exponent. -/
def IsNumberLit (lit : List Char) : Prop :=
  ∃ sg ip fr ex, lit = sg ++ ip ++ fr ++ ex ∧ (sg = [] ∨ sg = ['-']) ∧
    IsIntPart ip ∧ IsFraction fr ∧ IsExponent ex

mutual
/-- A value nested `d` containers deep.  A container may be opened only
while the nesting stays within `maxNestingDepth`. -/
inductive ValueText : Nat → JSON → List Char → List Char → Prop where
  | null (d : Nat) (rest : List Char) :
      ValueText d .null ('n' :: 'u' :: 'l' :: 'l' :: rest) rest
  | true (d : Nat) (rest : List Char) :
      ValueText d (.bool true) ('t' :: 'r' :: 'u' :: 'e' :: rest) rest
  | false (d : Nat) (rest : List Char) :
      ValueText d (.bool false) ('f' :: 'a' :: 'l' :: 's' :: 'e' :: rest) rest
  | number (d : Nat) (lit rest : List Char) :
      IsNumberLit lit → ValueText d (.number lit) (lit ++ rest) rest
  | string (d : Nat) (us : List StrUnit) (s : String) (cs rest : List Char) :
      StrBody us cs rest → s = String.mk (decodeUnits us) →
      ValueText d (.string s) (dquote :: cs) rest
  | emptyArray (d : Nat) (cs rest : List Char) :
      d < maxNestingDepth → Ws cs (']' :: rest) → ValueText d (.array []) ('[' :: cs) rest
  | array (d : Nat) (es : List JSON) (cs cs1 rest : List Char) :
      d < maxNestingDepth → Ws cs cs1 → ElemsText (d + 1) es cs1 rest →
      ValueText d (.array es) ('[' :: cs) rest
  | emptyObject (d : Nat) (cs rest : List Char) :
      d < maxNestingDepth → Ws cs (rbrace :: rest) →
      ValueText d (.object []) (lbrace :: cs) rest
  | object (d : Nat) (ms : List (String × JSON)) (cs cs1 rest : List Char) :
      d < maxNestingDepth → Ws cs cs1 → MembersText (d + 1) ms cs1 rest →
      ValueText d (.object ms) (lbrace :: cs) rest
/-- The elements of an array from the first one through the closing bracket:
values separated by commas, whitespace allowed around every token. -/
inductive ElemsText : Nat → List JSON → List Char → List Char → Prop where
  | last (d : Nat) (v : JSON) (cs r1 rest : List Char) :
      ValueText d v cs r1 → Ws r1 (']' :: rest) → ElemsText d [v] cs rest
  | more (d : Nat) (v : JSON) (es : List JSON) (cs r1 r2 r3 rest : List Char) :
      ValueText d v cs r1 → Ws r1 (',' :: r2) → Ws r2 r3 → ElemsText d es r3 rest →
      ElemsText d (v :: es) cs rest
/-- The members of an object from the first key through the closing brace:
each a string, a colon and a value, separated by commas, whitespace allowed
around every token. -/
inductive MembersText : Nat → List (String × JSON) → List Char → List Char → Prop where
  | last (d : Nat) (us : List StrUnit) (key : String) (v : JSON)
      (cs r1 r2 r3 r4 rest : List Char) :
      StrBody us cs r1 → key = String.mk (decodeUnits us) →
      Ws r1 (':' :: r2) → Ws r2 r3 → ValueText d v r3 r4 → Ws r4 (rbrace :: rest) →
      MembersText d [(key, v)] (dquote :: cs) rest
  | more (d : Nat) (us : List StrUnit) (key : String) (v : JSON) (ms : List (String × JSON))
      (cs r1 r2 r3 r4 r5 r6 rest : List Char) :
      StrBody us cs r1 → key = String.mk (decodeUnits us) →
      Ws r1 (':' :: r2) → Ws r2 r3 → ValueText d v r3 r4 → Ws r4 (',' :: r5) → Ws r5 r6 →
      MembersText d ms r6 rest →
      MembersText d ((key, v) :: ms) (dquote :: cs) rest
end

/-- A JSON text whose value is `v`: the value between optional whitespace,
nothing after it, nested at most `maxNestingDepth` deep. -/
def JsonText (body : List Char) (v : JSON) : Prop :=
  ∃ cs rest, Ws body cs ∧ ValueText 0 v cs rest ∧ Ws rest []

/-- The text does not go on with whitespace. -/
def NoSpaceHead (rest : List Char) : Prop :=
  ∀ c r, rest = c :: r → isSpace c = false

/-- The text that follows a value inside a JSON text: nothing, whitespace, or
one of the tokens that can follow a value. -/
def Delimited (rest : List Char) : Prop :=
  ∀ c r, rest = c :: r → isSpace c = true ∨ c = ',' ∨ c = ']' ∨ c = rbrace

/-- The text does not go on with a character satisfying `p`. -/
def HeadNot (p : Char → Bool) (l : List Char) : Prop :=
  ∀ c r, l = c :: r → p c = false

/-! ## The decoding contract, in the words of the specification -/

/-- Whether a field is one of the four string fields. -/
def Field.isString : Field → Bool
  | .followers => false
  | .following => false
  | _ => true

/-- The value of a field of a record: a string or an integer. -/
inductive FieldVal where
  | str (s : String)
  | int (n : Int)
deriving DecidableEq, Repr

/-- Reads a field of a record. -/
def GitHubUser.get (u : GitHubUser) : Field → FieldVal
  | .login => .str u.Login
  | .name => .str u.Name
  | .bio => .str u.Bio
  | .location => .str u.Location
  | .followers => .int u.Followers
  | .following => .int u.Following

/-- A key names a field when it is the field's key up to letter case. -/
def keyMatches (f : Field) (key : String) : Bool :=
  decide (foldName f.tag = foldName key)

/-- Whether a JSON value is `null`. -/
def JSON.isNull : JSON → Bool
  | .null => true
  | _ => false

/-- The literal `lit` is the integer `n` written in base 10 (or `-0` for
zero), and `n` fits a signed 64-bit `int`. -/
def IntLiteral (lit : List Char) (n : Int) : Prop :=
  -(2 : Int) ^ 63 ≤ n ∧ n < (2 : Int) ^ 63 ∧
    (lit = (toString n).toList ∨ (n = 0 ∧ lit = ['-', '0']))

/-- The JSON value `v` is the field value `x`: a string, or an integer
literal. -/
def Denotes (v : JSON) (x : FieldVal) : Prop :=
  match v, x with
  | .string s, .str t => t = s
  | .number lit, .int n => IntLiteral lit n
  | _, _ => False

/-- The JSON value `v` is acceptable for the field `f`: `null`, a string for a
string field, an integer literal within the 64-bit range for an integer
field. -/
def WellTyped (f : Field) (v : JSON) : Prop :=
  match v with
  | .null => True
  | .string _ => f.isString = true
  | .number lit => f.isString = false ∧ ∃ n, IntLiteral lit n
  | _ => False

/-- The value that counts for a field: that of the last member naming the
field whose value is not `null`, if there is one. -/
def lastNonNull (f : Field) : List (String × JSON) → Option JSON
  | [] => none
  | (key, v) :: rest =>
    match lastNonNull f rest with
    | some w => some w
    | none => if keyMatches f key && !v.isNull then some v else none

/-- The record `u` is what the specification asks of the members `ms` at the
field `f`: the value that counts, or the zero value when there is none. -/
def FieldSpec (ms : List (String × JSON)) (u : GitHubUser) (f : Field) : Prop :=
  match lastNonNull f ms with
  | none => u.get f = GitHubUser.zero.get f
  | some v => Denotes v (u.get f)

/-- Both integer fields of a record lie in the signed 64-bit range. -/
def InInt64Range (u : GitHubUser) : Prop :=
  (-(2 : Int) ^ 63 ≤ u.Followers ∧ u.Followers < (2 : Int) ^ 63) ∧
  (-(2 : Int) ^ 63 ≤ u.Following ∧ u.Following < (2 : Int) ^ 63)

/-! # Theorems -/

/-! ## Lemmas on `fmt.Sprintf` -/

theorem doPrintf_cons_lit (c : Char) (l : List Char) (args : List Arg) (hc : c ≠ '%') :
    doPrintf (c :: l) args = c :: doPrintf l args := by
  cases l with
  | nil => simp [doPrintf, hc]
  | cons v fmt => simp [doPrintf, hc]

theorem doPrintf_append_lit (lit rest : List Char) (args : List Arg) (h : '%' ∉ lit) :
    doPrintf (lit ++ rest) args = lit ++ doPrintf rest args := by
  induction lit with
  | nil => rfl
  | cons c l ih =>
    have hc : c ≠ '%' := fun e => h (by simp [e])
    have hl : '%' ∉ l := fun e => h (by simp [e])
    simp [doPrintf_cons_lit _ _ _ hc, ih hl]

theorem doPrintf_verb (v : Char) (fmt : List Char) (a : Arg) (rest : List Arg) (hv : v ≠ '%') :
    doPrintf ('%' :: v :: fmt) (a :: rest) = printArg v a ++ doPrintf fmt rest := by
  simp [doPrintf, hv]

theorem fmtInteger_eq_toString (n : Int) : String.mk (fmtInteger n) = toString n := by
  cases n with
  | ofNat m =>
    show String.mk (fmtInteger (Int.ofNat m)) = Nat.repr m
    have : ¬ ((m : Int) < 0) := by omega
    simp [fmtInteger, this, Nat.repr, List.asString]
  | negSucc m =>
    show String.mk (fmtInteger (Int.negSucc m)) = "-" ++ Nat.repr (m + 1)
    have : (Int.negSucc m) < 0 := Int.negSucc_lt_zero m
    simp [fmtInteger, this, Nat.repr, List.asString]
    rfl

theorem userInfoTemplate_segments : userInfoTemplate.toList =
    "\nGithub User Information:\n\nLogin: ".toList ++ '%' :: 's' ::
    ("\nName: ".toList ++ '%' :: 's' :: ("\nBio: ".toList ++ '%' :: 's' ::
    ("\nLocation: ".toList ++ '%' :: 's' :: ("\nFollowers: ".toList ++ '%' :: 'd' ::
    ("\nFollowing: ".toList ++ '%' :: 'd' :: "\n".toList))))) := by
  decide

/-- The template of `updateUserInfo` applied to the six fields is the display
format. -/
theorem Sprintf_userInfo (u : GitHubUser) :
    Sprintf userInfoTemplate
      [.str u.Login, .str u.Name, .str u.Bio, .str u.Location, .int u.Followers, .int u.Following]
      = displayText u := by
  simp only [Sprintf, displayText, ← fmtInteger_eq_toString]
  apply String.ext
  rw [userInfoTemplate_segments]
  simp only [String.data_append]
  repeat rw [doPrintf_append_lit _ _ _ (by decide), doPrintf_verb _ _ _ _ (by decide)]
  have hend : doPrintf "\n".toList [] = "\n".toList := by decide
  rw [hend]
  simp [printArg, Arg.value, String.toList]

/-- The URL template of `fetchGitHubUser` applied to a user name. -/
theorem Sprintf_url (username : String) :
    Sprintf "https://api.github.com/users/%s" [.str username]
      = "https://api.github.com/users/" ++ username := by
  have hseg : "https://api.github.com/users/%s".toList
      = "https://api.github.com/users/".toList ++ '%' :: 's' :: [] := by decide
  simp only [Sprintf]
  apply String.ext
  rw [hseg, doPrintf_append_lit _ _ _ (by decide), doPrintf_verb _ _ _ _ (by decide)]
  simp [printArg, Arg.value, String.toList, doPrintf]

/-- The error template of the handlers applied to an error value. -/
theorem Sprintf_error (e : GoError) :
    Sprintf "Error: %v" [.err e] = "Error: " ++ e.Error := by
  have hseg : "Error: %v".toList = "Error: ".toList ++ '%' :: 'v' :: [] := by decide
  simp only [Sprintf]
  apply String.ext
  rw [hseg, doPrintf_append_lit _ _ _ (by decide), doPrintf_verb _ _ _ _ (by decide)]
  simp [printArg, Arg.value, String.toList, doPrintf]

/-! ## Lemmas on the fetch and the handlers -/

theorem updateUserInfo_some (a : App) (u : GitHubUser) :
    updateUserInfo a (some u)
      = .ok { a with textView := { a.textView with text := displayText u } } := by
  simp only [updateUserInfo, Sprintf_userInfo, TextView.SetText]

theorem fetch_of_get_error (env : Env) (username : String) (e : GoError)
    (h : env.Get ("https://api.github.com/users/" ++ username) = .error e) :
    fetchGitHubUser env username
      = { user := none, err := some e,
          calls := [.httpGet ("https://api.github.com/users/" ++ username)] } := by
  simp only [fetchGitHubUser, clientGet, Sprintf_url, h]

theorem fetch_of_decode_error (env : Env) (username : String) (resp : Response) (je : JsonError)
    (h : env.Get ("https://api.github.com/users/" ++ username) = .ok resp)
    (hd : Unmarshal resp.body = .error je) :
    fetchGitHubUser env username
      = { user := none, err := some (env.jsonError je),
          calls := [.httpGet ("https://api.github.com/users/" ++ username)] } := by
  simp only [fetchGitHubUser, clientGet, Sprintf_url, h, hd]

theorem fetch_of_decode_ok (env : Env) (username : String) (resp : Response) (u : GitHubUser)
    (h : env.Get ("https://api.github.com/users/" ++ username) = .ok resp)
    (hd : Unmarshal resp.body = .ok u) :
    fetchGitHubUser env username
      = { user := some u, err := none,
          calls := [.httpGet ("https://api.github.com/users/" ++ username)] } := by
  simp only [fetchGitHubUser, clientGet, Sprintf_url, h, hd]

/-- The three shapes a fetch result can take. -/
theorem fetch_cases (env : Env) (username : String) :
    (∃ e, fetchGitHubUser env username
        = { user := none, err := some e,
            calls := [.httpGet ("https://api.github.com/users/" ++ username)] }) ∨
    (∃ u, fetchGitHubUser env username
        = { user := some u, err := none,
            calls := [.httpGet ("https://api.github.com/users/" ++ username)] }) := by
  cases hg : env.Get ("https://api.github.com/users/" ++ username) with
  | error e => exact Or.inl ⟨e, fetch_of_get_error env username e hg⟩
  | ok resp =>
    cases hd : Unmarshal resp.body with
    | error je => exact Or.inl ⟨_, fetch_of_decode_error env username resp je hg hd⟩
    | ok u => exact Or.inr ⟨u, fetch_of_decode_ok env username resp u hg hd⟩

theorem search_of_fetch_error (env : Env) (a : App) (e : GoError) (cs : List Call)
    (h : fetchGitHubUser env a.inputField.text = { user := none, err := some e, calls := cs }) :
    searchHandler env a
      = .ok { app := { a with textView := { a.textView with text := "Error: " ++ e.Error } },
              calls := cs } := by
  simp only [searchHandler, InputField.GetText, h, Sprintf_error, TextView.SetText]

theorem search_of_fetch_ok (env : Env) (a : App) (u : GitHubUser) (cs : List Call)
    (h : fetchGitHubUser env a.inputField.text = { user := some u, err := none, calls := cs }) :
    searchHandler env a
      = .ok { app := { a with textView := { a.textView with text := displayText u } },
              calls := cs ++ [.updateUserInfo (some u)] } := by
  simp only [searchHandler, InputField.GetText, h, updateUserInfo_some]

theorem done_enter_eq_search (env : Env) (a : App) :
    doneFunc env a KeyEnter = searchHandler env a := by
  simp only [doneFunc, searchHandler, if_true]

theorem done_other (env : Env) (a : App) (key : Key) (h : key ≠ KeyEnter) :
    doneFunc env a key = .ok { app := a, calls := [] } := by
  simp only [doneFunc, h, if_false]

/-- The Search handler never panics; it changes the text of the view and
nothing else, and the new text depends on the fetch result only. -/
theorem search_outcome (env : Env) (a : App) :
    ∃ cs, searchHandler env a
      = .ok { app := { a with textView := { a.textView with
                text := lookupText (fetchGitHubUser env a.inputField.text) } },
              calls := cs } ∧
      requests cs = ["https://api.github.com/users/" ++ a.inputField.text] := by
  rcases fetch_cases env a.inputField.text with ⟨e, h⟩ | ⟨u, h⟩
  · refine ⟨[.httpGet ("https://api.github.com/users/" ++ a.inputField.text)], ?_, rfl⟩
    rw [search_of_fetch_error env a e _ h, h]; rfl
  · refine ⟨[.httpGet ("https://api.github.com/users/" ++ a.inputField.text),
      .updateUserInfo (some u)], ?_, rfl⟩
    rw [search_of_fetch_ok env a u _ h, h]; rfl

/-! ## Lemmas on the decoder -/

/-- No two fields have the same key up to letter case. -/
theorem foldName_tag_injective :
    ∀ f g : Field, foldName f.tag = foldName g.tag → f = g := by
  intro f g
  cases f <;> cases g <;> first
    | (intro _; rfl)
    | (intro h; exact absurd h (by decide))

/-- The decoder selects a field exactly when the key names it up to letter
case. -/
theorem findField_eq_some_iff (key : String) (g : Field) :
    findField key = some g ↔ keyMatches g key = true := by
  have inj := foldName_tag_injective
  constructor
  · intro h
    simp only [findField] at h
    split at h
    · rename_i f hf
      have hp := List.find?_some hf
      simp only [decide_eq_true_eq] at hp
      cases h
      simp [keyMatches, hp]
    · have hp := List.find?_some h
      simpa [keyMatches] using hp
  · intro h
    simp only [keyMatches, decide_eq_true_eq] at h
    simp only [findField]
    split
    · rename_i f hf
      have hp := List.find?_some hf
      simp only [decide_eq_true_eq] at hp
      have : foldName f.tag = foldName g.tag := by rw [hp, h]
      rw [inj f g this]
    · cases hfind : Field.all.find? (fun f => decide (foldName f.tag = foldName key)) with
      | none =>
        have hall := List.find?_eq_none.mp hfind g (by cases g <;> simp [Field.all])
        simp [h] at hall
      | some f =>
        have hp := List.find?_some hfind
        simp only [decide_eq_true_eq] at hp
        have : foldName f.tag = foldName g.tag := by rw [hp, h]
        rw [inj f g this]

theorem findField_eq_none_iff (key : String) :
    findField key = none ↔ ∀ f, keyMatches f key = false := by
  constructor
  · intro h f
    cases hm : keyMatches f key with
    | false => rfl
    | true =>
      rw [(findField_eq_some_iff key f).mpr hm] at h
      cases h
  · intro h
    cases hf : findField key with
    | none => rfl
    | some f =>
      have := (findField_eq_some_iff key f).mp hf
      rw [h f] at this
      cases this

/-! ## Lemmas on `strconv.ParseInt` -/

theorem signedInt64_range (neg : Bool) (un : Nat) (n : Int) (h : signedInt64 neg un = some n) :
    -(2 : Int) ^ 63 ≤ n ∧ n < (2 : Int) ^ 63 := by
  unfold signedInt64 at h
  have h2 : ((2 : Nat) ^ 63 : Nat) = 9223372036854775808 := by norm_num
  have h3 : ((2 : Int) ^ 63) = 9223372036854775808 := by norm_num
  rw [h3]
  cases neg with
  | true =>
    simp only [if_true] at h
    split at h
    · cases h
    · cases h
      omega
  | false =>
    simp only [Bool.false_eq_true, if_false] at h
    split at h
    · cases h
    · cases h
      omega

/-- Whatever `parseInt64` returns lies in the signed 64-bit range. -/
theorem parseInt64_range (s : List Char) (n : Int) (h : parseInt64 s = some n) :
    -(2 : Int) ^ 63 ≤ n ∧ n < (2 : Int) ^ 63 := by
  unfold parseInt64 at h
  split at h
  · cases h
  · split at h
    · split at h
      · cases h
      · exact signedInt64_range _ _ _ h
    · split at h
      · split at h
        · cases h
        · exact signedInt64_range _ _ _ h
      · split at h
        · cases h
        · exact signedInt64_range _ _ _ h

theorem digitChar_isDigit (k : Nat) (h : k < 10) :
    (Nat.digitChar k).isDigit = true ∧ (Nat.digitChar k).toNat - 48 = k ∧
      Nat.digitChar k ≠ '-' ∧ Nat.digitChar k ≠ '+' := by
  interval_cases k <;> decide

/-- The digits `Nat.toDigits` produces: a non-empty run of decimal digits
whose value is the number. -/
theorem toDigitsCore_spec : ∀ (fuel n : Nat) (ds : List Char), n < fuel →
    ∃ pre, Nat.toDigitsCore 10 fuel n ds = pre ++ ds ∧ pre ≠ [] ∧
      pre.all Char.isDigit = true ∧
      pre.foldl (fun acc c => 10 * acc + (c.toNat - 48)) 0 = n := by
  intro fuel
  induction fuel with
  | zero => intro n ds h; omega
  | succ fuel ih =>
    intro n ds h
    have hd := digitChar_isDigit (n % 10) (Nat.mod_lt _ (by decide))
    by_cases h0 : n / 10 = 0
    · refine ⟨[Nat.digitChar (n % 10)], ?_, by simp, ?_, ?_⟩
      · simp [Nat.toDigitsCore, h0]
      · simp [hd.1]
      · simp only [List.foldl]
        rw [hd.2.1]
        omega
    · have hlt : n / 10 < fuel := by omega
      obtain ⟨pre, hpre, hne, hall, hval⟩ := ih (n / 10) (Nat.digitChar (n % 10) :: ds) hlt
      refine ⟨pre ++ [Nat.digitChar (n % 10)], ?_, by simp, ?_, ?_⟩
      · simp [Nat.toDigitsCore, h0, hpre]
      · simp [List.all_append, hall, hd.1]
      · rw [List.foldl_append, hval]
        simp only [List.foldl]
        rw [hd.2.1]
        omega

theorem parseDigits_toDigits (m : Nat) : parseDigits (Nat.toDigits 10 m) = some m := by
  obtain ⟨pre, hpre, hne, hall, hval⟩ := toDigitsCore_spec (m + 1) m [] (by omega)
  simp only [List.append_nil] at hpre
  simp only [Nat.toDigits, hpre, parseDigits, hne, hall, hval]
  simp

theorem toDigits_head (m : Nat) :
    ∃ c r, Nat.toDigits 10 m = c :: r ∧ c ≠ '-' ∧ c ≠ '+' := by
  obtain ⟨pre, hpre, hne, hall, _⟩ := toDigitsCore_spec (m + 1) m [] (by omega)
  simp only [List.append_nil] at hpre
  cases pre with
  | nil => exact absurd rfl hne
  | cons c r =>
    refine ⟨c, r, hpre, ?_, ?_⟩
    · intro hc
      simp [hc] at hall
    · intro hc
      simp [hc] at hall

/-- Reading back the base-10 text of an integer in the 64-bit range gives the
integer. -/
theorem parseInt64_fmtInteger (n : Int) (hlo : -(2 : Int) ^ 63 ≤ n) (hhi : n < (2 : Int) ^ 63) :
    parseInt64 (fmtInteger n) = some n := by
  have h3 : ((2 : Int) ^ 63) = 9223372036854775808 := by norm_num
  have h2 : ((2 : Nat) ^ 63 : Nat) = 9223372036854775808 := by norm_num
  rw [h3] at hlo hhi
  by_cases hneg : n < 0
  · simp only [fmtInteger, hneg, if_true, parseInt64, parseDigits_toDigits]
    simp only [signedInt64, if_true, h2]
    have : ¬ (9223372036854775808 < n.natAbs) := by omega
    simp only [this, if_false]
    congr 1
    omega
  · simp only [fmtInteger, hneg, if_false]
    obtain ⟨c, r, hcr, h1, h2'⟩ := toDigits_head n.toNat
    have hp := parseDigits_toDigits n.toNat
    rw [hcr] at hp ⊢
    simp only [parseInt64, h1, h2', if_false, hp, signedInt64, Bool.false_eq_true, h2]
    have : ¬ (9223372036854775808 ≤ n.toNat) := by omega
    simp only [this, if_false]
    congr 1
    omega

/-- An integer literal in the sense of the specification is read back by
`parseInt64` as the integer it denotes. -/
theorem parseInt64_of_IntLiteral (lit : List Char) (n : Int) (h : IntLiteral lit n) :
    parseInt64 lit = some n := by
  obtain ⟨hlo, hhi, hlit | ⟨h0, hlit⟩⟩ := h
  · rw [hlit, ← fmtInteger_eq_toString]
    exact parseInt64_fmtInteger n hlo hhi
  · rw [hlit, h0]
    decide

/-! ## Lemmas on the member loop -/

theorem storeValue_wellTyped (u0 : GitHubUser) (g : Field) (v : JSON) (h : WellTyped g v) :
    ∃ u1, storeValue u0 g v = .ok u1 ∧ (∀ f, f ≠ g → u1.get f = u0.get f) ∧
      (v.isNull = true → u1 = u0) ∧ (v.isNull = false → Denotes v (u1.get g)) := by
  cases v with
  | null => exact ⟨u0, rfl, fun _ _ => rfl, fun _ => rfl, fun h => (by cases h)⟩
  | bool b => exact absurd h (by simp [WellTyped])
  | array es => exact absurd h (by simp [WellTyped])
  | object ms => exact absurd h (by simp [WellTyped])
  | string s =>
    simp only [WellTyped] at h
    cases g <;> first
      | (exact absurd h (by decide))
      | (refine ⟨_, rfl, ?_, fun h => (by cases h), fun _ => rfl⟩
         intro f hf
         cases f <;> first | rfl | exact absurd rfl hf)
  | number lit =>
    simp only [WellTyped] at h
    obtain ⟨hg, n, hn⟩ := h
    have hp := parseInt64_of_IntLiteral lit n hn
    have hframe : ∀ (u1 : GitHubUser) (g : Field), storeValue u0 g (.number lit) = .ok u1 →
        (∀ f, f ≠ g → u1.get f = u0.get f) := by
      intro u1 g hs f hf
      cases g <;> simp only [storeValue, storeNumber, hp] at hs <;> cases hs <;>
        cases f <;> first | rfl | exact absurd rfl hf
    cases g with
    | followers =>
      have hs : storeValue u0 .followers (.number lit) = .ok { u0 with Followers := n } := by
        simp only [storeValue, storeNumber, hp]
      exact ⟨_, hs, hframe _ _ hs, fun h => (by cases h), fun _ => hn⟩
    | following =>
      have hs : storeValue u0 .following (.number lit) = .ok { u0 with Following := n } := by
        simp only [storeValue, storeNumber, hp]
      exact ⟨_, hs, hframe _ _ hs, fun h => (by cases h), fun _ => hn⟩
    | login => exact absurd hg (by decide)
    | name => exact absurd hg (by decide)
    | bio => exact absurd hg (by decide)
    | location => exact absurd hg (by decide)

theorem lastNonNull_cons_of_not_matching (f : Field) (key : String) (v : JSON)
    (rest : List (String × JSON)) (h : (keyMatches f key && !v.isNull) = false) :
    lastNonNull f ((key, v) :: rest) = lastNonNull f rest := by
  simp only [lastNonNull, h]
  cases lastNonNull f rest <;> simp

/-- The member loop on well-typed members: it succeeds, and each field holds
the last non-null value of a member naming it, or else what it held before. -/
theorem decodeMembers_spec : ∀ (ms : List (String × JSON)) (u0 : GitHubUser),
    (∀ key v f, (key, v) ∈ ms → keyMatches f key = true → WellTyped f v) →
    ∃ u, decodeMembers ms u0 = .ok u ∧
      ∀ f, match lastNonNull f ms with
        | none => u.get f = u0.get f
        | some w => Denotes w (u.get f) := by
  intro ms
  induction ms with
  | nil =>
    intro u0 _
    exact ⟨u0, rfl, fun f => rfl⟩
  | cons kv rest ih =>
    intro u0 hty
    obtain ⟨key, v⟩ := kv
    have hrest : ∀ key v f, (key, v) ∈ rest → keyMatches f key = true → WellTyped f v :=
      fun k w f hm hk => hty k w f (List.mem_cons_of_mem _ hm) hk
    cases hf : findField key with
    | none =>
      obtain ⟨u, hu, hspec⟩ := ih u0 hrest
      refine ⟨u, by simp only [decodeMembers, hf, hu], ?_⟩
      intro f
      have hm := (findField_eq_none_iff key).mp hf f
      rw [lastNonNull_cons_of_not_matching f key v rest (by simp [hm])]
      exact hspec f
    | some g =>
      have hg := (findField_eq_some_iff key g).mp hf
      obtain ⟨u1, hu1, hother, hnull, hden⟩ :=
        storeValue_wellTyped u0 g v (hty key v g (List.mem_cons_self _ _) hg)
      obtain ⟨u, hu, hspec⟩ := ih u1 hrest
      refine ⟨u, by simp only [decodeMembers, hf, hu1, hu], ?_⟩
      intro f
      have hsf := hspec f
      by_cases hfg : f = g
      · subst hfg
        cases hv : v.isNull with
        | true =>
          rw [lastNonNull_cons_of_not_matching f key v rest (by simp [hv])]
          rw [hnull hv] at hsf
          exact hsf
        | false =>
          simp only [lastNonNull]
          cases hl : lastNonNull f rest with
          | some w =>
            rw [hl] at hsf
            exact hsf
          | none =>
            rw [hl] at hsf
            simp only [hg, hv, Bool.not_false, Bool.and_self, if_true]
            rw [hsf]
            exact hden hv
      · have hm : keyMatches f key = false := by
          cases hk : keyMatches f key with
          | false => rfl
          | true =>
            have := (findField_eq_some_iff key f).mpr hk
            rw [hf] at this
            exact absurd (Option.some.inj this).symm hfg
        rw [lastNonNull_cons_of_not_matching f key v rest (by simp [hm])]
        cases hl : lastNonNull f rest with
        | some w =>
          rw [hl] at hsf
          exact hsf
        | none =>
          rw [hl] at hsf
          simp only
          rw [hsf]
          exact hother f hfg

theorem storeValue_range (u0 u1 : GitHubUser) (g : Field) (v : JSON)
    (h0 : InInt64Range u0) (h : storeValue u0 g v = .ok u1) : InInt64Range u1 := by
  cases v with
  | null =>
    cases h
    exact h0
  | bool b => cases h
  | array es => cases h
  | object ms => cases h
  | string s =>
    cases g <;> first
      | (cases h; exact h0)
      | (cases h)
  | number lit =>
    cases g <;> simp only [storeValue, storeNumber] at h <;> first
      | (cases h)
      | (cases hp : parseInt64 lit with
         | none =>
           rw [hp] at h
           cases h
         | some n =>
           rw [hp] at h
           cases h
           have hr := parseInt64_range lit n hp
           first
             | exact ⟨hr, h0.2⟩
             | exact ⟨h0.1, hr⟩)

theorem decodeMembers_range : ∀ (ms : List (String × JSON)) (u0 u : GitHubUser),
    InInt64Range u0 → decodeMembers ms u0 = .ok u → InInt64Range u := by
  intro ms
  induction ms with
  | nil =>
    intro u0 u h0 h
    cases h
    exact h0
  | cons kv rest ih =>
    intro u0 u h0 h
    obtain ⟨key, v⟩ := kv
    simp only [decodeMembers] at h
    cases hf : findField key with
    | none =>
      simp only [hf] at h
      exact ih u0 u h0 h
    | some g =>
      simp only [hf] at h
      cases hs : storeValue u0 g v with
      | error e =>
        simp only [hs] at h
        cases h
      | ok u1 =>
        simp only [hs] at h
        exact ih u1 u (storeValue_range u0 u1 g v h0 hs) h

theorem zero_range : InInt64Range GitHubUser.zero := by
  simp only [InInt64Range, GitHubUser.zero]
  norm_num

/-- A decoded record has both counters in the signed 64-bit range. -/
theorem Unmarshal_range (body : String) (u : GitHubUser) (h : Unmarshal body = .ok u) :
    InInt64Range u := by
  simp only [Unmarshal] at h
  split at h
  · cases h
  · split at h
    · exact decodeMembers_range _ _ _ zero_range h
    · cases h
      exact zero_range
    all_goals cases h

/-- A successful fetch took its record from decoding the body of a response. -/
theorem fetch_user_some (env : Env) (username : String) (u : GitHubUser)
    (h : (fetchGitHubUser env username).user = some u) :
    ∃ resp, env.Get ("https://api.github.com/users/" ++ username) = .ok resp ∧
      Unmarshal resp.body = .ok u := by
  cases hg : env.Get ("https://api.github.com/users/" ++ username) with
  | error e =>
    rw [fetch_of_get_error env username e hg] at h
    cases h
  | ok resp =>
    cases hd : Unmarshal resp.body with
    | error je =>
      rw [fetch_of_decode_error env username resp je hg hd] at h
      cases h
    | ok u1 =>
      rw [fetch_of_decode_ok env username resp u1 hg hd] at h
      cases h
      exact ⟨resp, rfl, hd⟩

/-! ## The parser's fuel -/

/-- Skipping whitespace never lengthens the input. -/
theorem skipSpace_length (cs : List Char) : (skipSpace cs).length ≤ cs.length := by
  unfold skipSpace
  induction cs with
  | nil => simp
  | cons c r ih =>
    simp only [List.dropWhile]
    split
    · simp only [List.length_cons]; omega
    · simp

theorem scanString_length_aux : ∀ (n : Nat) (cs : List Char) (us : List StrUnit)
    (rest : List Char), cs.length ≤ n →
    scanString cs = some (us, rest) → rest.length < cs.length := by
  intro n
  induction n with
  | zero =>
    intro cs us rest hn h
    cases cs with
    | nil => simp [scanString] at h
    | cons c r => simp at hn
  | succ n ih =>
    intro cs us rest hn h
    cases cs with
    | nil => simp [scanString] at h
    | cons c cs =>
      simp only [List.length_cons] at hn ⊢
      unfold scanString at h
      split at h
      · cases h
        omega
      · split at h
        · split at h
          · cases h
          · split at h
            · split at h
              · split at h
                · cases h
                · split at h
                  · cases h
                  · rename_i hs
                    cases h
                    have := ih _ _ _ (by simp only [List.length_cons] at hn ⊢; omega) hs
                    simp only [List.length_cons] at this ⊢
                    omega
              · cases h
            · split at h
              · cases h
              · split at h
                · cases h
                · rename_i hs
                  cases h
                  have := ih _ _ _ (by simp only [List.length_cons] at hn ⊢; omega) hs
                  simp only [List.length_cons] at this ⊢
                  omega
        · split at h
          · cases h
          · split at h
            · cases h
            · rename_i hs
              cases h
              have := ih _ _ _ (by omega) hs
              omega

/-- A scanned string literal consumes at least its closing quote. -/
theorem scanString_length (cs : List Char) (us : List StrUnit) (rest : List Char)
    (h : scanString cs = some (us, rest)) : rest.length < cs.length :=
  scanString_length_aux cs.length cs us rest (Nat.le_refl _) h

theorem spanDigits_length (cs : List Char) : (spanDigits cs).2.length ≤ cs.length := by
  unfold spanDigits
  rw [List.span_eq_take_drop]
  show (List.dropWhile Char.isDigit cs).length ≤ cs.length
  induction cs with
  | nil => simp
  | cons c r ih =>
    simp only [List.dropWhile]
    split
    · simp only [List.length_cons]; omega
    · simp

theorem scanSign_length (p : Char → Bool) (cs : List Char) :
    (scanSign p cs).2.length ≤ cs.length := by
  unfold scanSign
  split
  · split
    · simp
    · exact Nat.le_refl _
  · exact Nat.le_refl _

theorem scanFraction_length (cs fr rest : List Char) (h : scanFraction cs = some (fr, rest)) :
    rest.length ≤ cs.length := by
  unfold scanFraction at h
  split at h
  · rename_i c r
    split at h
    · have hs := spanDigits_length r
      split at h
      · cases h
      · rename_i ds rest1 _ heq
        cases h
        rw [heq] at hs
        simp only [List.length_cons] at hs ⊢
        omega
    · cases h
      exact Nat.le_refl _
  · cases h
    exact Nat.le_refl _

theorem scanExponent_length (cs ex rest : List Char) (h : scanExponent cs = some (ex, rest)) :
    rest.length ≤ cs.length := by
  unfold scanExponent at h
  split at h
  · rename_i c r
    split at h
    · have hs := spanDigits_length (scanSign (fun s => s = '+' || s = '-') r).2
      have hg := scanSign_length (fun s => s = '+' || s = '-') r
      split at h
      · cases h
      · rename_i ds rest1 _ heq
        cases h
        rw [heq] at hs
        simp only [List.length_cons] at hs ⊢
        omega
    · cases h
      exact Nat.le_refl _
  · cases h
    exact Nat.le_refl _

theorem scanIntPart_length (cs ip rest : List Char) (h : scanIntPart cs = some (ip, rest)) :
    rest.length < cs.length := by
  unfold scanIntPart at h
  split at h
  · rename_i c r
    split at h
    · cases h
      simp
    · split at h
      · have hs := spanDigits_length r
        cases h
        simp only [List.length_cons]
        omega
      · cases h
  · cases h

/-- A scanned number consumes at least one digit. -/
theorem scanNumber_length (cs lit rest : List Char) (h : scanNumber cs = some (lit, rest)) :
    rest.length < cs.length := by
  unfold scanNumber at h
  have h1 := scanSign_length (fun s => s = '-') cs
  split at h
  · cases h
  · rename_i ip cs2 hip
    have h2 := scanIntPart_length _ _ _ hip
    split at h
    · cases h
    · rename_i fr cs3 hfr
      have h3 := scanFraction_length _ _ _ hfr
      split at h
      · cases h
      · rename_i ex rest1 hex
        have h4 := scanExponent_length _ _ _ hex
        cases h
        omega

theorem expectWord_length (w cs r : List Char) (h : expectWord w cs = some r) :
    r.length + w.length = cs.length := by
  unfold expectWord at h
  split at h
  · rename_i hp
    cases h
    have hle : w.length ≤ cs.length := (List.isPrefixOf_iff_prefix.mp hp).length_le
    simp only [List.length_drop]
    omega
  · cases h

/-- A successful call of the parser consumes at least one character. -/
theorem parse_length : ∀ fuel : Nat,
    (∀ d cs v rest, parseValue fuel d cs = some (v, rest) → rest.length < cs.length) ∧
    (∀ d cs ms rest, parseMembers fuel d cs = some (ms, rest) → rest.length < cs.length) ∧
    (∀ d cs es rest, parseElems fuel d cs = some (es, rest) → rest.length < cs.length) := by
  intro fuel
  induction fuel with
  | zero =>
    refine ⟨?_, ?_, ?_⟩ <;> intro d cs v rest h
    · simp [parseValue] at h
    · simp [parseMembers] at h
    · simp [parseElems] at h
  | succ fuel ih =>
    obtain ⟨ihV, ihM, ihE⟩ := ih
    refine ⟨?_, ?_, ?_⟩
    · intro d cs v rest h
      unfold parseValue at h
      split at h
      · cases h
      · rename_i c r
        simp only [List.length_cons]
        split at h
        · split at h
          · cases h
          · have hsk := skipSpace_length r
            split at h
            · cases h
            · rename_i c1 r1 hs
              rw [hs] at hsk
              simp only [List.length_cons] at hsk
              split at h
              · cases h
                omega
              · split at h
                · cases h
                · rename_i ms r2 hm
                  cases h
                  have := ihM _ _ _ _ hm
                  simp only [List.length_cons] at this
                  omega
        · split at h
          · split at h
            · cases h
            · have hsk := skipSpace_length r
              split at h
              · cases h
              · rename_i c1 r1 hs
                rw [hs] at hsk
                simp only [List.length_cons] at hsk
                split at h
                · cases h
                  omega
                · split at h
                  · cases h
                  · rename_i es r2 hm
                    cases h
                    have := ihE _ _ _ _ hm
                    simp only [List.length_cons] at this
                    omega
          · split at h
            · split at h
              · cases h
              · rename_i us r1 hs
                cases h
                have := scanString_length _ _ _ hs
                omega
            · split at h
              · split at h
                · cases h
                · rename_i lit r1 hs
                  cases h
                  have := scanNumber_length _ _ _ hs
                  simp only [List.length_cons] at this
                  omega
              · split at h
                · split at h
                  · cases h
                  · rename_i r1 hs
                    cases h
                    have := expectWord_length _ _ _ hs
                    simp only [List.length_cons] at this
                    have hw : "true".toList.length = 4 := by decide
                    omega
                · split at h
                  · split at h
                    · cases h
                    · rename_i r1 hs
                      cases h
                      have := expectWord_length _ _ _ hs
                      simp only [List.length_cons] at this
                      have hw : "false".toList.length = 5 := by decide
                      omega
                  · split at h
                    · split at h
                      · cases h
                      · rename_i r1 hs
                        cases h
                        have := expectWord_length _ _ _ hs
                        simp only [List.length_cons] at this
                        have hw : "null".toList.length = 4 := by decide
                        omega
                    · cases h
    · intro d cs ms rest h
      unfold parseMembers at h
      split at h
      · cases h
      · rename_i c r
        simp only [List.length_cons]
        split at h
        · split at h
          · cases h
          · rename_i us r1 hs
            have h1 := scanString_length _ _ _ hs
            have hsk := skipSpace_length r1
            split at h
            · cases h
            · rename_i c2 r2 hs2
              rw [hs2] at hsk
              simp only [List.length_cons] at hsk
              split at h
              · have hsk2 := skipSpace_length r2
                split at h
                · cases h
                · rename_i v r3 hv
                  have h3 := ihV _ _ _ _ hv
                  have hsk3 := skipSpace_length r3
                  split at h
                  · cases h
                  · rename_i c4 r4 hs4
                    rw [hs4] at hsk3
                    simp only [List.length_cons] at hsk3
                    split at h
                    · have hsk4 := skipSpace_length r4
                      split at h
                      · cases h
                      · rename_i ms1 r5 hm
                        cases h
                        have := ihM _ _ _ _ hm
                        omega
                    · split at h
                      · cases h
                        omega
                      · cases h
              · cases h
        · cases h
    · intro d cs es rest h
      unfold parseElems at h
      split at h
      · cases h
      · rename_i v r1 hv
        have h1 := ihV _ _ _ _ hv
        have hsk := skipSpace_length r1
        split at h
        · cases h
        · rename_i c2 r2 hs2
          rw [hs2] at hsk
          simp only [List.length_cons] at hsk
          split at h
          · have hsk2 := skipSpace_length r2
            split at h
            · cases h
            · rename_i es1 r3 hm
              cases h
              have := ihE _ _ _ _ hm
              omega
          · split at h
            · cases h
              omega
            · cases h


/-- With fuel above twice the length of the input, the three parsing functions
give the same result whatever the fuel. -/
theorem parse_fuel : ∀ fuel fuel' : Nat,
    (∀ d cs, 2 * cs.length + 1 ≤ fuel → 2 * cs.length + 1 ≤ fuel' →
      parseValue fuel d cs = parseValue fuel' d cs) ∧
    (∀ d cs, 2 * cs.length + 2 ≤ fuel → 2 * cs.length + 2 ≤ fuel' →
      parseMembers fuel d cs = parseMembers fuel' d cs) ∧
    (∀ d cs, 2 * cs.length + 2 ≤ fuel → 2 * cs.length + 2 ≤ fuel' →
      parseElems fuel d cs = parseElems fuel' d cs) := by
  intro fuel
  induction fuel with
  | zero =>
    intro fuel'
    refine ⟨?_, ?_, ?_⟩ <;> intro d cs h <;> omega
  | succ fuel ih =>
    intro fuel'
    cases fuel' with
    | zero => refine ⟨?_, ?_, ?_⟩ <;> intro d cs _ h <;> omega
    | succ fuel' =>
      obtain ⟨ihV, ihM, ihE⟩ := ih fuel'
      refine ⟨?_, ?_, ?_⟩
      · intro d cs h1 h2
        cases cs with
        | nil => simp [parseValue]
        | cons c r =>
          simp only [List.length_cons] at h1 h2
          have hsk := skipSpace_length r
          unfold parseValue
          simp only
          split
          · split
            · rfl
            · split
              · rfl
              · rename_i c1 r1 hs
                rw [hs] at hsk
                simp only [List.length_cons] at hsk
                rw [ihM (d + 1) (c1 :: r1) (by simp only [List.length_cons]; omega)
                  (by simp only [List.length_cons]; omega)]
          · split
            · split
              · rfl
              · split
                · rfl
                · rename_i c1 r1 hs
                  rw [hs] at hsk
                  simp only [List.length_cons] at hsk
                  rw [ihE (d + 1) (c1 :: r1) (by simp only [List.length_cons]; omega)
                    (by simp only [List.length_cons]; omega)]
            · rfl
      · intro d cs h1 h2
        cases cs with
        | nil => simp [parseMembers]
        | cons c r =>
          simp only [List.length_cons] at h1 h2
          unfold parseMembers
          simp only
          split
          · split
            · rfl
            · rename_i us r1 hs
              have hl1 := scanString_length _ _ _ hs
              have hsk1 := skipSpace_length r1
              split
              · rfl
              · rename_i c2 r2 hs2
                rw [hs2] at hsk1
                simp only [List.length_cons] at hsk1
                have hsk2 := skipSpace_length r2
                split
                · rw [ihV d (skipSpace r2) (by omega) (by omega)]
                  split
                  · rfl
                  · rename_i v r3 hv
                    have hl3 := (parse_length fuel').1 _ _ _ _ hv
                    have hsk3 := skipSpace_length r3
                    split
                    · rfl
                    · rename_i c4 r4 hs4
                      rw [hs4] at hsk3
                      simp only [List.length_cons] at hsk3
                      have hsk4 := skipSpace_length r4
                      split
                      · rw [ihM d (skipSpace r4) (by omega) (by omega)]
                      · rfl
                · rfl
          · rfl
      · intro d cs h1 h2
        unfold parseElems
        rw [ihV d cs (by omega) (by omega)]
        split
        · rfl
        · rename_i v r1 hv
          have hl1 := (parse_length fuel').1 _ _ _ _ hv
          have hsk1 := skipSpace_length r1
          split
          · rfl
          · rename_i c2 r2 hs2
            rw [hs2] at hsk1
            simp only [List.length_cons] at hsk1
            have hsk2 := skipSpace_length r2
            split
            · rw [ihE d (skipSpace r2) (by omega) (by omega)]
            · rfl

/-- The result of `parseJSON` does not depend on the fuel: any larger amount
gives the same value or the same failure, so a failure is never a want of
fuel. -/
theorem parseJSON_fuel (body : List Char) (fuel : Nat) (h : 2 * body.length + 1 ≤ fuel) :
    parseJSON body
      = match parseValue fuel 0 (skipSpace body) with
        | none => none
        | some (v, rest) => if skipSpace rest = [] then some v else none := by
  have hsk := skipSpace_length body
  unfold parseJSON
  rw [(parse_fuel (2 * body.length + 1) fuel).1 0 (skipSpace body) (by omega) (by omega)]

/-! ## The parser accepts every JSON text -/

theorem skipSpace_of_Ws (cs rest : List Char) (h : Ws cs rest) (hn : NoSpaceHead rest) :
    skipSpace cs = rest := by
  induction h with
  | done cs =>
    cases cs with
    | nil => rfl
    | cons c r =>
      have := hn c r rfl
      simp [skipSpace, List.dropWhile, this]
  | skip c cs rest hc _ ih =>
    have := ih hn
    simp only [skipSpace] at this ⊢
    simp [List.dropWhile, hc, this]

theorem Ws_skipSpace (cs : List Char) : Ws cs (skipSpace cs) := by
  induction cs with
  | nil => exact Ws.done []
  | cons c r ih =>
    cases hc : isSpace c with
    | true =>
      have : skipSpace (c :: r) = skipSpace r := by simp [skipSpace, List.dropWhile, hc]
      rw [this]
      exact Ws.skip c r _ hc ih
    | false =>
      have : skipSpace (c :: r) = c :: r := by simp [skipSpace, List.dropWhile, hc]
      rw [this]
      exact Ws.done _

theorem Delimited_of_Ws (r1 rest : List Char) (c : Char) (h : Ws r1 (c :: rest))
    (hc : c = ',' ∨ c = ']' ∨ c = rbrace) : Delimited r1 := by
  cases h with
  | done => 
    intro c1 r hr
    cases hr
    exact Or.inr hc
  | skip c0 cs _ h0 _ =>
    intro c1 r hr
    cases hr
    exact Or.inl h0

theorem Delimited_of_Ws_nil (r1 : List Char) (h : Ws r1 []) : Delimited r1 := by
  cases h with
  | done => 
    intro c1 r hr
    cases hr
  | skip c0 cs _ h0 _ =>
    intro c1 r hr
    cases hr
    exact Or.inl h0

theorem scanString_of_StrBody (us : List StrUnit) (cs rest : List Char)
    (h : StrBody us cs rest) : scanString cs = some (us, rest) := by
  induction h with
  | close rest =>
    unfold scanString
    simp
  | plain c us cs rest h32 hq hb _ ih =>
    have h1 : ¬ c.toNat < 32 := by omega
    unfold scanString
    simp [hq, hb, h1, ih]
  | escape e ch us cs rest he _ ih =>
    have hnone : simpleEscape 'u' = none := by decide
    have hu : e ≠ 'u' := by
      intro hu
      rw [hu, hnone] at he
      cases he
    have hbq : bslash ≠ dquote := by decide
    unfold scanString
    simp [hbq, hu, he, ih]
  | unicode h1 h2 h3 h4 n us cs rest hn _ ih =>
    have hbq : bslash ≠ dquote := by decide
    unfold scanString
    simp [hbq, hn, ih]

theorem StrBody_of_scanString : ∀ (n : Nat) (cs : List Char) (us : List StrUnit)
    (rest : List Char), cs.length ≤ n →
    scanString cs = some (us, rest) → StrBody us cs rest := by
  intro n
  induction n with
  | zero =>
    intro cs us rest hn h
    cases cs with
    | nil => simp [scanString] at h
    | cons c r => simp at hn
  | succ n ih =>
    intro cs us rest hn h
    cases cs with
    | nil => simp [scanString] at h
    | cons c cs =>
      simp only [List.length_cons] at hn
      unfold scanString at h
      split at h
      · rename_i hq
        cases h
        rw [hq]
        exact StrBody.close _
      · rename_i hq
        split at h
        · rename_i hb
          split at h
          · cases h
          · rename_i e cs1
            split at h
            · rename_i hu
              split at h
              · rename_i h1 h2 h3 h4 cs2
                split at h
                · cases h
                · rename_i k hk
                  split at h
                  · cases h
                  · rename_i us1 rest1 hs
                    cases h
                    rw [hb, hu]
                    exact StrBody.unicode _ _ _ _ _ _ _ _ hk
                      (ih _ _ _ (by simp only [List.length_cons] at hn ⊢; omega) hs)
              · cases h
            · split at h
              · cases h
              · rename_i ch hch
                split at h
                · cases h
                · rename_i us1 rest1 hs
                  cases h
                  rw [hb]
                  exact StrBody.escape _ _ _ _ _ hch
                    (ih _ _ _ (by simp only [List.length_cons] at hn ⊢; omega) hs)
        · rename_i hb
          split at h
          · cases h
          · rename_i h32
            split at h
            · cases h
            · rename_i us1 rest1 hs
              cases h
              exact StrBody.plain _ _ _ _ (by omega) hq hb (ih _ _ _ (by omega) hs)

theorem isDigit_iff (c : Char) : c.isDigit = true ↔ ('0' ≤ c ∧ c ≤ '9') := by
  simp only [Char.isDigit, Bool.and_eq_true, decide_eq_true_eq, Char.le_def]
  constructor
  · intro h
    exact ⟨h.1, h.2⟩
  · intro h
    exact ⟨h.1, h.2⟩

theorem spanDigits_append (ds t : List Char) (hd : ∀ c ∈ ds, '0' ≤ c ∧ c ≤ '9')
    (ht : HeadNot Char.isDigit t) : spanDigits (ds ++ t) = (ds, t) := by
  unfold spanDigits
  induction ds with
  | nil =>
    cases t with
    | nil => rfl
    | cons c r => simp [List.span, List.span.loop, ht c r rfl]
  | cons d ds ih =>
    have h1 : d.isDigit = true := (isDigit_iff d).mpr (hd d (List.mem_cons_self _ _))
    have h2 := ih (fun c hc => hd c (List.mem_cons_of_mem _ hc))
    rw [List.span_eq_take_drop] at h2 ⊢
    simp only [List.cons_append, List.takeWhile, List.dropWhile, h1]
    simp only [Prod.mk.injEq] at h2 ⊢
    exact ⟨congrArg (List.cons d) h2.1, h2.2⟩

theorem spanDigits_spec (cs : List Char) :
    cs = (spanDigits cs).1 ++ (spanDigits cs).2 ∧
    (∀ c ∈ (spanDigits cs).1, '0' ≤ c ∧ c ≤ '9') := by
  unfold spanDigits
  rw [List.span_eq_take_drop]
  refine ⟨(List.takeWhile_append_dropWhile _ _).symm, ?_⟩
  intro c hc
  exact (isDigit_iff c).mp (List.mem_takeWhile_imp hc)

theorem space_cases (c : Char) (h : isSpace c = true) :
    c = ' ' ∨ c = Char.ofNat 9 ∨ c = Char.ofNat 13 ∨ c = Char.ofNat 10 := by
  simp only [isSpace, Bool.or_eq_true, decide_eq_true_eq] at h
  have hc := Char.ofNat_toNat c
  rcases h with ((h | h) | h) | h
  · left; rw [← hc, h]
  · right; left; rw [← hc, h]
  · right; right; left; rw [← hc, h]
  · right; right; right; rw [← hc, h]

/-- A character that can follow a value is not part of a number. -/
theorem delimiter_not_number (c : Char)
    (h : isSpace c = true ∨ c = ',' ∨ c = ']' ∨ c = rbrace) :
    c.isDigit = false ∧ c ≠ '.' ∧ c ≠ 'e' ∧ c ≠ 'E' ∧ c ≠ '+' ∧ c ≠ '-' := by
  rcases h with h | h | h | h
  · rcases space_cases c h with h | h | h | h <;> subst h <;> decide
  · subst h; decide
  · subst h; decide
  · subst h; decide

theorem HeadNot_of_Delimited (p : Char → Bool) (rest : List Char) (h : Delimited rest)
    (hp : ∀ c, (isSpace c = true ∨ c = ',' ∨ c = ']' ∨ c = rbrace) → p c = false) :
    HeadNot p rest := by
  intro c r hr
  exact hp c (h c r hr)

theorem scanIntPart_of (ip t : List Char) (h : IsIntPart ip) (ht : HeadNot Char.isDigit t) :
    scanIntPart (ip ++ t) = some (ip, t) := by
  rcases h with h | ⟨c, ds, h, h1, h9, hds⟩
  · subst h
    simp [scanIntPart]
  · subst h
    have h0 : c ≠ '0' := by
      intro h0
      subst h0
      exact absurd h1 (by decide)
    simp only [List.cons_append, scanIntPart, h0, if_false, h1, h9, and_self, if_true,
      spanDigits_append ds t hds ht]

theorem scanFraction_of (fr t : List Char) (h : IsFraction fr) (ht : HeadNot Char.isDigit t)
    (hdot : fr = [] → HeadNot (fun c => decide (c = '.')) t) :
    scanFraction (fr ++ t) = some (fr, t) := by
  rcases h with h | ⟨ds, h, hne, hds⟩
  · subst h
    have hd := hdot rfl
    cases t with
    | nil => simp [scanFraction]
    | cons c r =>
      have := hd c r rfl
      simp only [decide_eq_false_iff_not] at this
      simp [scanFraction, this]
  · subst h
    cases ds with
    | nil => exact absurd rfl hne
    | cons d ds =>
      simp only [List.cons_append, scanFraction, if_true]
      have := spanDigits_append (d :: ds) t hds ht
      simp only [List.cons_append] at this
      rw [this]

theorem scanExponent_of (ex rest : List Char) (h : IsExponent ex) (hr : Delimited rest) :
    scanExponent (ex ++ rest) = some (ex, rest) := by
  have hrd : HeadNot Char.isDigit rest :=
    HeadNot_of_Delimited _ rest hr (fun c hc => (delimiter_not_number c hc).1)
  rcases h with h | ⟨e, sg, ds, h, he, hsg, hne, hds⟩
  · subst h
    cases rest with
    | nil => simp [scanExponent]
    | cons c r =>
      have := delimiter_not_number c (hr c r rfl)
      simp [scanExponent, this.2.2.1, this.2.2.2.1]
  · subst h
    cases ds with
    | nil => exact absurd rfl hne
    | cons d ds =>
      have hd : '0' ≤ d ∧ d ≤ '9' := hds d (List.mem_cons_self _ _)
      have hsign : scanSign (fun s => s = '+' || s = '-') (sg ++ (d :: ds ++ rest))
          = (sg, d :: ds ++ rest) := by
        rcases hsg with hsg | hsg | hsg
        · subst hsg
          have hp : d ≠ '+' := by
            intro hp; subst hp; exact absurd hd.1 (by decide)
          have hm : d ≠ '-' := by
            intro hm; subst hm; exact absurd hd.1 (by decide)
          simp [scanSign, hp, hm]
        · subst hsg
          simp [scanSign]
        · subst hsg
          simp [scanSign]
      have hspan := spanDigits_append (d :: ds) rest hds hrd
      simp only [List.cons_append] at hspan hsign
      simp only [List.cons_append, List.append_assoc, scanExponent, he, if_true, hsign, hspan]

theorem scanNumber_of (lit rest : List Char) (h : IsNumberLit lit) (hr : Delimited rest) :
    scanNumber (lit ++ rest) = some (lit, rest) := by
  obtain ⟨sg, ip, fr, ex, hlit, hsg, hip, hfr, hex⟩ := h
  subst hlit
  have hrn : ∀ c, (isSpace c = true ∨ c = ',' ∨ c = ']' ∨ c = rbrace) →
      c.isDigit = false ∧ c ≠ '.' := fun c hc =>
    ⟨(delimiter_not_number c hc).1, (delimiter_not_number c hc).2.1⟩
  -- what follows the fraction
  have ht2d : HeadNot Char.isDigit (ex ++ rest) := by
    rcases hex with h | ⟨e, sg1, ds, h, he, _, _, _⟩
    · subst h
      exact HeadNot_of_Delimited _ rest hr (fun c hc => (hrn c hc).1)
    · subst h
      intro c r hcr
      simp only [List.cons_append, List.cons.injEq] at hcr
      rw [← hcr.1]
      rcases he with he | he <;> subst he <;> decide
  have ht2dot : HeadNot (fun c => decide (c = '.')) (ex ++ rest) := by
    rcases hex with h | ⟨e, sg1, ds, h, he, _, _, _⟩
    · subst h
      exact HeadNot_of_Delimited _ rest hr
        (fun c hc => by simp only [decide_eq_false_iff_not]; exact (hrn c hc).2)
    · subst h
      intro c r hcr
      simp only [List.cons_append, List.cons.injEq] at hcr
      rw [← hcr.1]
      rcases he with he | he <;> subst he <;> decide
  -- what follows the integer part
  have ht1d : HeadNot Char.isDigit (fr ++ (ex ++ rest)) := by
    rcases hfr with h | ⟨ds, h, _, _⟩
    · subst h
      exact ht2d
    · subst h
      intro c r hcr
      simp only [List.cons_append, List.cons.injEq] at hcr
      rw [← hcr.1]
      decide
  have hsign : scanSign (fun s => s = '-') (sg ++ (ip ++ (fr ++ (ex ++ rest))))
      = (sg, ip ++ (fr ++ (ex ++ rest))) := by
    rcases hsg with hsg | hsg
    · subst hsg
      rcases hip with h | ⟨c, ds, h, h1, h9, hds⟩
      · subst h
        simp [scanSign]
      · subst h
        have hm : c ≠ '-' := by
          intro hm; subst hm; exact absurd h1 (by decide)
        simp [scanSign, hm]
    · subst hsg
      simp [scanSign]
  have h1 := scanIntPart_of ip _ hip ht1d
  have h2 := scanFraction_of fr _ hfr ht2d (fun _ => ht2dot)
  have h3 := scanExponent_of ex rest hex hr
  simp only [scanNumber, List.append_assoc, hsign, h1, h2, h3]

theorem number_head (lit : List Char) (h : IsNumberLit lit) :
    ∃ c r, lit = c :: r ∧ (c = '-' ∨ c.isDigit = true) := by
  obtain ⟨sg, ip, fr, ex, hlit, hsg, hip, _, _⟩ := h
  subst hlit
  rcases hsg with hsg | hsg
  · subst hsg
    rcases hip with h | ⟨c, ds, h, h1, h9, _⟩
    · subst h
      exact ⟨'0', _, rfl, Or.inr (by decide)⟩
    · subst h
      refine ⟨c, _, rfl, Or.inr ((isDigit_iff c).mpr ⟨?_, h9⟩)⟩
      exact Char.le_trans (by decide : '0' ≤ '1') h1
  · subst hsg
    exact ⟨'-', _, rfl, Or.inl rfl⟩

theorem number_head_class (c : Char) (h : c = '-' ∨ c.isDigit = true) :
    c ≠ lbrace ∧ c ≠ '[' ∧ c ≠ dquote ∧ isSpace c = false ∧ c ≠ ']' ∧ c ≠ rbrace := by
  rcases h with h | h
  · subst h; decide
  · have hd := (isDigit_iff c).mp h
    refine ⟨?_, ?_, ?_, ?_, ?_, ?_⟩
    · intro e; subst e; exact absurd hd.2 (by decide)
    · intro e; subst e; exact absurd hd.2 (by decide)
    · intro e; subst e; exact absurd hd.1 (by decide)
    · cases hs : isSpace c with
      | false => rfl
      | true =>
        rcases space_cases c hs with e | e | e | e <;> subst e <;> exact absurd hd.1 (by decide)
    · intro e; subst e; exact absurd hd.2 (by decide)
    · intro e; subst e; exact absurd hd.2 (by decide)

/-- A value starts with a character that is neither whitespace nor a closing
bracket or brace. -/
theorem value_head (d : Nat) (v : JSON) (cs rest : List Char) (h : ValueText d v cs rest) :
    ∃ c r, cs = c :: r ∧ isSpace c = false ∧ c ≠ ']' ∧ c ≠ rbrace := by
  cases h with
  | null => exact ⟨_, _, rfl, by decide, by decide, by decide⟩
  | true => exact ⟨_, _, rfl, by decide, by decide, by decide⟩
  | false => exact ⟨_, _, rfl, by decide, by decide, by decide⟩
  | number =>
    rename_i lit hl
    obtain ⟨c, r, hcr, hc⟩ := number_head lit hl
    have := number_head_class c hc
    subst hcr
    exact ⟨c, _, rfl, this.2.2.2.1, this.2.2.2.2.1, this.2.2.2.2.2⟩
  | string => exact ⟨_, _, rfl, by decide, by decide, by decide⟩
  | emptyArray => exact ⟨_, _, rfl, by decide, by decide, by decide⟩
  | array => exact ⟨_, _, rfl, by decide, by decide, by decide⟩
  | emptyObject => exact ⟨_, _, rfl, by decide, by decide, by decide⟩
  | object => exact ⟨_, _, rfl, by decide, by decide, by decide⟩

theorem elems_head (d : Nat) (es : List JSON) (cs rest : List Char)
    (h : ElemsText d es cs rest) :
    ∃ c r, cs = c :: r ∧ isSpace c = false ∧ c ≠ ']' := by
  cases h with
  | last =>
    rename_i v r1 hv hws
    obtain ⟨c, r, h1, h2, h3, _⟩ := value_head _ _ _ _ hv
    exact ⟨c, r, h1, h2, h3⟩
  | more =>
    rename_i v es r1 r2 r3 hw1 hw2 hv hes
    obtain ⟨c, r, h1, h2, h3, _⟩ := value_head _ _ _ _ hv
    exact ⟨c, r, h1, h2, h3⟩

theorem members_head (d : Nat) (ms : List (String × JSON)) (cs rest : List Char)
    (h : MembersText d ms cs rest) : ∃ r, cs = dquote :: r := by
  cases h with
  | last => exact ⟨_, rfl⟩
  | more => exact ⟨_, rfl⟩

theorem NoSpaceHead_cons (c : Char) (r : List Char) (h : isSpace c = false) :
    NoSpaceHead (c :: r) := by
  intro c1 r1 h1
  cases h1
  exact h

theorem succ_of_le (f0 f : Nat) (h : f0 + 1 ≤ f) : ∃ f1, f = f1 + 1 ∧ f0 ≤ f1 :=
  ⟨f - 1, by omega, by omega⟩

/-- The value parser on a value's text, given the element and member parsers
one level deeper. -/
theorem value_complete (d : Nat)
    (hE : d < maxNestingDepth → ∀ es cs rest, ElemsText (d + 1) es cs rest →
      ∃ f0, ∀ f, f0 ≤ f → parseElems f (d + 1) cs = some (es, rest))
    (hM : d < maxNestingDepth → ∀ ms cs rest, MembersText (d + 1) ms cs rest →
      ∃ f0, ∀ f, f0 ≤ f → parseMembers f (d + 1) cs = some (ms, rest)) :
    ∀ v cs rest, ValueText d v cs rest → Delimited rest →
      ∃ f0, ∀ f, f0 ≤ f → parseValue f d cs = some (v, rest) := by
  intro v cs rest h hr
  cases h with
  | null =>
    refine ⟨1, fun f hf => ?_⟩
    obtain ⟨f1, rfl, _⟩ := succ_of_le 0 f hf
    unfold parseValue
    simp +decide [expectWord]
  | true =>
    refine ⟨1, fun f hf => ?_⟩
    obtain ⟨f1, rfl, _⟩ := succ_of_le 0 f hf
    unfold parseValue
    simp +decide [expectWord]
  | false =>
    refine ⟨1, fun f hf => ?_⟩
    obtain ⟨f1, rfl, _⟩ := succ_of_le 0 f hf
    unfold parseValue
    simp +decide [expectWord]
  | number =>
    rename_i lit hl
    refine ⟨1, fun f hf => ?_⟩
    obtain ⟨f1, rfl, _⟩ := succ_of_le 0 f hf
    obtain ⟨c, r, hcr, hc⟩ := number_head lit hl
    have hcl := number_head_class c hc
    have hs := scanNumber_of lit rest hl hr
    subst hcr
    simp only [List.cons_append] at hs ⊢
    unfold parseValue
    simp only [hcl.1, hcl.2.1, hcl.2.2.1, if_false]
    have hc' : (c = '-' ∨ c.isDigit = true) := hc
    simp only [hc', if_true, hs]
  | string =>
    rename_i us s cs he hs
    refine ⟨1, fun f hf => ?_⟩
    obtain ⟨f1, rfl, _⟩ := succ_of_le 0 f hf
    have h1 := scanString_of_StrBody _ _ _ hs
    have hq1 : dquote ≠ lbrace := by decide
    have hq2 : dquote ≠ '[' := by decide
    unfold parseValue
    simp only [hq1, hq2, if_false, if_true, h1, he]
  | emptyArray =>
    rename_i cs hd hws
    refine ⟨1, fun f hf => ?_⟩
    obtain ⟨f1, rfl, _⟩ := succ_of_le 0 f hf
    have hsk := skipSpace_of_Ws _ _ hws (NoSpaceHead_cons _ _ (by decide))
    have h1 : '[' ≠ lbrace := by decide
    have h2 : ¬ (maxNestingDepth < d + 1) := by omega
    unfold parseValue
    simp only [h1, if_false, if_true, h2, hsk]
  | array =>
    rename_i es cs cs1 hws hd hes
    obtain ⟨f0, hf0⟩ := hE hd es cs1 rest hes
    obtain ⟨c1, r1, hc1, hsp, hne⟩ := elems_head _ _ _ _ hes
    subst hc1
    refine ⟨f0 + 1, fun f hf => ?_⟩
    obtain ⟨f1, rfl, hf1⟩ := succ_of_le f0 f hf
    have hsk := skipSpace_of_Ws _ _ hws (NoSpaceHead_cons _ _ hsp)
    have h1 : '[' ≠ lbrace := by decide
    have h2 : ¬ (maxNestingDepth < d + 1) := by omega
    unfold parseValue
    simp only [h1, if_false, if_true, h2, hsk, hne, hf0 f1 hf1]
  | emptyObject =>
    rename_i cs hd hws
    refine ⟨1, fun f hf => ?_⟩
    obtain ⟨f1, rfl, _⟩ := succ_of_le 0 f hf
    have hsk := skipSpace_of_Ws _ _ hws (NoSpaceHead_cons _ _ (by decide))
    have h2 : ¬ (maxNestingDepth < d + 1) := by omega
    unfold parseValue
    simp only [if_false, if_true, h2, hsk]
  | object =>
    rename_i ms cs cs1 hws hd hms
    obtain ⟨f0, hf0⟩ := hM hd ms cs1 rest hms
    obtain ⟨r1, hc1⟩ := members_head _ _ _ _ hms
    subst hc1
    refine ⟨f0 + 1, fun f hf => ?_⟩
    obtain ⟨f1, rfl, hf1⟩ := succ_of_le f0 f hf
    have hsk := skipSpace_of_Ws _ _ hws (NoSpaceHead_cons _ _ (by decide))
    have h2 : ¬ (maxNestingDepth < d + 1) := by omega
    have h3 : dquote ≠ rbrace := by decide
    unfold parseValue
    simp only [if_false, if_true, h2, hsk, h3, hf0 f1 hf1]

/-- The element parser on the text of the elements, given the value parser at
the same depth. -/
theorem elems_complete (d : Nat)
    (hV : ∀ v cs rest, ValueText d v cs rest → Delimited rest →
      ∃ f0, ∀ f, f0 ≤ f → parseValue f d cs = some (v, rest)) :
    ∀ es cs rest, ElemsText d es cs rest →
      ∃ f0, ∀ f, f0 ≤ f → parseElems f d cs = some (es, rest) := by
  intro es
  induction es with
  | nil =>
    intro cs rest h
    cases h
  | cons v0 es ih =>
    intro cs rest h
    cases h with
    | last =>
      rename_i r1 hv hws
      obtain ⟨f0, hf0⟩ := hV _ _ _ hv (Delimited_of_Ws _ _ _ hws (Or.inr (Or.inl rfl)))
      refine ⟨f0 + 1, fun f hf => ?_⟩
      obtain ⟨f1, rfl, hf1⟩ := succ_of_le f0 f hf
      have hsk := skipSpace_of_Ws _ _ hws (NoSpaceHead_cons _ _ (by decide))
      have h1 : ']' ≠ ',' := by decide
      unfold parseElems
      simp only [hf0 f1 hf1, hsk, h1, if_false, if_true]
    | more =>
      rename_i r1 r2 r3 hw1 hw2 hv hes
      obtain ⟨f0, hf0⟩ := hV _ _ _ hv (Delimited_of_Ws _ _ _ hw1 (Or.inl rfl))
      obtain ⟨g0, hg0⟩ := ih _ _ hes
      obtain ⟨c3, t3, hc3, hsp, _⟩ := elems_head _ _ _ _ hes
      refine ⟨max f0 g0 + 1, fun f hf => ?_⟩
      obtain ⟨f1, rfl, hf1⟩ := succ_of_le _ f hf
      have hsk1 := skipSpace_of_Ws _ _ hw1 (NoSpaceHead_cons _ _ (by decide))
      have hsk2 := skipSpace_of_Ws _ _ hw2 (by rw [hc3]; exact NoSpaceHead_cons _ _ hsp)
      unfold parseElems
      simp only [hf0 f1 (by omega), hsk1, if_true, hsk2, hg0 f1 (by omega)]

/-- The member parser on the text of the members, given the value parser at
the same depth. -/
theorem members_complete (d : Nat)
    (hV : ∀ v cs rest, ValueText d v cs rest → Delimited rest →
      ∃ f0, ∀ f, f0 ≤ f → parseValue f d cs = some (v, rest)) :
    ∀ ms cs rest, MembersText d ms cs rest →
      ∃ f0, ∀ f, f0 ≤ f → parseMembers f d cs = some (ms, rest) := by
  intro ms
  induction ms with
  | nil =>
    intro cs rest h
    cases h
  | cons m0 ms ih =>
    intro cs rest h
    cases h with
    | last =>
      rename_i us key v cs r1 r2 r3 r4 hs hk hw1 hw2 hv hw3
      obtain ⟨f0, hf0⟩ := hV _ _ _ hv (Delimited_of_Ws _ _ _ hw3 (Or.inr (Or.inr rfl)))
      obtain ⟨c3, t3, hc3, hsp, _⟩ := value_head _ _ _ _ hv
      refine ⟨f0 + 1, fun f hf => ?_⟩
      obtain ⟨f1, rfl, hf1⟩ := succ_of_le f0 f hf
      have hstr := scanString_of_StrBody _ _ _ hs
      have hsk1 := skipSpace_of_Ws _ _ hw1 (NoSpaceHead_cons _ _ (by decide))
      have hsk2 := skipSpace_of_Ws _ _ hw2 (by rw [hc3]; exact NoSpaceHead_cons _ _ hsp)
      have hsk3 := skipSpace_of_Ws _ _ hw3 (NoSpaceHead_cons _ _ (by decide))
      have h1 : rbrace ≠ ',' := by decide
      unfold parseMembers
      simp only [if_true, hstr, hsk1, hsk2, hf0 f1 hf1, hsk3, h1, if_false, hk]
    | more =>
      rename_i us key v cs r1 r2 r3 r4 r5 r6 hs hk hw1 hw2 hw3 hw4 hv hms
      obtain ⟨f0, hf0⟩ := hV _ _ _ hv (Delimited_of_Ws _ _ _ hw3 (Or.inl rfl))
      obtain ⟨g0, hg0⟩ := ih _ _ hms
      obtain ⟨c3, t3, hc3, hsp, _⟩ := value_head _ _ _ _ hv
      obtain ⟨t6, hc6⟩ := members_head _ _ _ _ hms
      refine ⟨max f0 g0 + 1, fun f hf => ?_⟩
      obtain ⟨f1, rfl, hf1⟩ := succ_of_le _ f hf
      have hstr := scanString_of_StrBody _ _ _ hs
      have hsk1 := skipSpace_of_Ws _ _ hw1 (NoSpaceHead_cons _ _ (by decide))
      have hsk2 := skipSpace_of_Ws _ _ hw2 (by rw [hc3]; exact NoSpaceHead_cons _ _ hsp)
      have hsk3 := skipSpace_of_Ws _ _ hw3 (NoSpaceHead_cons _ _ (by decide))
      have hsk4 := skipSpace_of_Ws _ _ hw4
        (by rw [hc6]; exact NoSpaceHead_cons _ _ (by decide))
      unfold parseMembers
      simp only [if_true, hstr, hsk1, hsk2, hf0 f1 (by omega), hsk3, hsk4,
        hg0 f1 (by omega), hk]

/-- The three parsers on the texts of the grammar, at every depth. -/
theorem parse_complete : ∀ (k d : Nat), maxNestingDepth - d ≤ k →
    (∀ v cs rest, ValueText d v cs rest → Delimited rest →
      ∃ f0, ∀ f, f0 ≤ f → parseValue f d cs = some (v, rest)) ∧
    (∀ es cs rest, ElemsText d es cs rest →
      ∃ f0, ∀ f, f0 ≤ f → parseElems f d cs = some (es, rest)) ∧
    (∀ ms cs rest, MembersText d ms cs rest →
      ∃ f0, ∀ f, f0 ≤ f → parseMembers f d cs = some (ms, rest)) := by
  intro k
  induction k with
  | zero =>
    intro d hd
    have hV := value_complete d (fun h => by omega) (fun h => by omega)
    exact ⟨hV, elems_complete d hV, members_complete d hV⟩
  | succ k ih =>
    intro d hd
    have hV := value_complete d
      (fun h => (ih (d + 1) (by omega)).2.1)
      (fun h => (ih (d + 1) (by omega)).2.2)
    exact ⟨hV, elems_complete d hV, members_complete d hV⟩

/-- Every JSON text is parsed, to the value it is a text of. -/
theorem parseJSON_of_JsonText (body : List Char) (v : JSON) (h : JsonText body v) :
    parseJSON body = some v := by
  obtain ⟨cs, rest, hw1, hv, hw2⟩ := h
  obtain ⟨c, r, hc, hsp, _⟩ := value_head _ _ _ _ hv
  have hsk1 : skipSpace body = cs :=
    skipSpace_of_Ws _ _ hw1 (by rw [hc]; exact NoSpaceHead_cons _ _ hsp)
  have hsk2 : skipSpace rest = [] := skipSpace_of_Ws _ _ hw2 (fun c r h => by cases h)
  obtain ⟨f0, hf0⟩ :=
    (parse_complete maxNestingDepth 0 (by omega)).1 v cs rest hv (Delimited_of_Ws_nil _ hw2)
  have hfuel := parseJSON_fuel body (max f0 (2 * body.length + 1)) (by omega)
  rw [hfuel, hsk1, hf0 _ (by omega)]
  simp only [hsk2, if_true]

/-! ## The parser accepts nothing but JSON texts -/

theorem scanSign_spec (p : Char → Bool) (cs : List Char) :
    cs = (scanSign p cs).1 ++ (scanSign p cs).2 ∧
    ((scanSign p cs).1 = [] ∨ ∃ c, (scanSign p cs).1 = [c] ∧ p c = true) := by
  unfold scanSign
  split
  · rename_i c r
    split
    · rename_i hp
      exact ⟨rfl, Or.inr ⟨c, rfl, hp⟩⟩
    · exact ⟨rfl, Or.inl rfl⟩
  · exact ⟨rfl, Or.inl rfl⟩

theorem scanIntPart_spec (cs ip rest : List Char) (h : scanIntPart cs = some (ip, rest)) :
    cs = ip ++ rest ∧ IsIntPart ip := by
  unfold scanIntPart at h
  split at h
  · rename_i c r
    split at h
    · rename_i h0
      cases h
      exact ⟨rfl, Or.inl (by rw [h0])⟩
    · split at h
      · rename_i h19
        cases h
        have hs := spanDigits_spec r
        refine ⟨?_, Or.inr ⟨c, _, rfl, h19.1, h19.2, hs.2⟩⟩
        simp only [List.cons_append]
        exact congrArg (List.cons c) hs.1
      · cases h
  · cases h

theorem scanFraction_spec (cs fr rest : List Char) (h : scanFraction cs = some (fr, rest)) :
    cs = fr ++ rest ∧ IsFraction fr := by
  unfold scanFraction at h
  split at h
  · rename_i c r
    split at h
    · rename_i hdot
      have hs := spanDigits_spec r
      split at h
      · cases h
      · rename_i ds rest1 hne heq
        cases h
        rw [heq] at hs
        simp only at hs
        refine ⟨?_, Or.inr ⟨ds, by rw [hdot], ?_, hs.2⟩⟩
        · simp only [List.cons_append]
          exact congrArg (List.cons c) hs.1
        · intro hnil
          subst hnil
          exact hne rfl
    · cases h
      exact ⟨rfl, Or.inl rfl⟩
  · cases h
    exact ⟨rfl, Or.inl rfl⟩

theorem scanExponent_spec (cs ex rest : List Char) (h : scanExponent cs = some (ex, rest)) :
    cs = ex ++ rest ∧ IsExponent ex := by
  unfold scanExponent at h
  split at h
  · rename_i c r
    split at h
    · rename_i he
      have hg := scanSign_spec (fun s => s = '+' || s = '-') r
      have hs := spanDigits_spec (scanSign (fun s => s = '+' || s = '-') r).2
      split at h
      · cases h
      · rename_i ds rest1 hne heq
        cases h
        rw [heq] at hs
        simp only at hs
        refine ⟨?_, Or.inr ⟨c, _, ds, rfl, he, ?_, ?_, hs.2⟩⟩
        · simp only [List.cons_append, List.append_assoc]
          refine congrArg (List.cons c) ?_
          rw [← hs.1]
          exact hg.1
        · rcases hg.2 with h0 | ⟨s, h1, hp⟩
          · exact Or.inl h0
          · simp only [Bool.or_eq_true, decide_eq_true_eq] at hp
            rcases hp with hp | hp
            · exact Or.inr (Or.inl (by rw [h1, hp]))
            · exact Or.inr (Or.inr (by rw [h1, hp]))
        · intro hnil
          subst hnil
          exact hne rfl
    · cases h
      exact ⟨rfl, Or.inl rfl⟩
  · cases h
    exact ⟨rfl, Or.inl rfl⟩

theorem scanNumber_spec (cs lit rest : List Char) (h : scanNumber cs = some (lit, rest)) :
    cs = lit ++ rest ∧ IsNumberLit lit := by
  unfold scanNumber at h
  have hg := scanSign_spec (fun s => s = '-') cs
  split at h
  · cases h
  · rename_i ip cs2 hip
    have h2 := scanIntPart_spec _ _ _ hip
    split at h
    · cases h
    · rename_i fr cs3 hfr
      have h3 := scanFraction_spec _ _ _ hfr
      split at h
      · cases h
      · rename_i ex rest1 hex
        have h4 := scanExponent_spec _ _ _ hex
        cases h
        refine ⟨?_, ⟨_, ip, fr, ex, rfl, ?_, h2.2, h3.2, h4.2⟩⟩
        · simp only [List.append_assoc]
          rw [← h4.1, ← h3.1, ← h2.1]
          exact hg.1
        · rcases hg.2 with h0 | ⟨s, h1, hp⟩
          · exact Or.inl h0
          · simp only [decide_eq_true_eq] at hp
            exact Or.inr (by rw [h1, hp])

theorem expectWord_spec (w cs r : List Char) (h : expectWord w cs = some r) :
    cs = w ++ r := by
  unfold expectWord at h
  split at h
  · rename_i hp
    cases h
    obtain ⟨t, ht⟩ := List.isPrefixOf_iff_prefix.mp hp
    rw [← ht]
    simp
  · cases h

/-- What the three parsers return is a text of the grammar. -/
theorem parse_sound : ∀ fuel : Nat,
    (∀ d cs v rest, parseValue fuel d cs = some (v, rest) → ValueText d v cs rest) ∧
    (∀ d cs ms rest, parseMembers fuel d cs = some (ms, rest) → MembersText d ms cs rest) ∧
    (∀ d cs es rest, parseElems fuel d cs = some (es, rest) → ElemsText d es cs rest) := by
  intro fuel
  induction fuel with
  | zero =>
    refine ⟨?_, ?_, ?_⟩ <;> intro d cs v rest h
    · simp [parseValue] at h
    · simp [parseMembers] at h
    · simp [parseElems] at h
  | succ fuel ih =>
    obtain ⟨ihV, ihM, ihE⟩ := ih
    refine ⟨?_, ?_, ?_⟩
    · intro d cs v rest h
      unfold parseValue at h
      split at h
      · cases h
      · rename_i c r
        split at h
        · rename_i hc
          subst hc
          split at h
          · cases h
          · rename_i hd
            have hws := Ws_skipSpace r
            split at h
            · cases h
            · rename_i c1 r1 hs
              rw [hs] at hws
              split at h
              · rename_i hc1
                cases h
                subst hc1
                exact ValueText.emptyObject d r _ (by omega) hws
              · split at h
                · cases h
                · rename_i ms r2 hm
                  cases h
                  exact ValueText.object d ms r _ _ (by omega) hws (ihM _ _ _ _ hm)
        · split at h
          · rename_i hc
            subst hc
            split at h
            · cases h
            · rename_i hd
              have hws := Ws_skipSpace r
              split at h
              · cases h
              · rename_i c1 r1 hs
                rw [hs] at hws
                split at h
                · rename_i hc1
                  cases h
                  subst hc1
                  exact ValueText.emptyArray d r _ (by omega) hws
                · split at h
                  · cases h
                  · rename_i es r2 hm
                    cases h
                    exact ValueText.array d es r _ _ (by omega) hws (ihE _ _ _ _ hm)
          · split at h
            · rename_i hc
              subst hc
              split at h
              · cases h
              · rename_i us r1 hs
                cases h
                exact ValueText.string d us _ r _ (StrBody_of_scanString _ _ _ _ (Nat.le_refl _) hs)
                  rfl
            · split at h
              · split at h
                · cases h
                · rename_i lit r1 hs
                  cases h
                  have hn := scanNumber_spec _ _ _ hs
                  rw [hn.1]
                  exact ValueText.number d lit _ hn.2
              · split at h
                · split at h
                  · cases h
                  · rename_i r1 hs
                    cases h
                    have hn := expectWord_spec _ _ _ hs
                    rw [hn]
                    exact ValueText.true d _
                · split at h
                  · split at h
                    · cases h
                    · rename_i r1 hs
                      cases h
                      have hn := expectWord_spec _ _ _ hs
                      rw [hn]
                      exact ValueText.false d _
                  · split at h
                    · split at h
                      · cases h
                      · rename_i r1 hs
                        cases h
                        have hn := expectWord_spec _ _ _ hs
                        rw [hn]
                        exact ValueText.null d _
                    · cases h
    · intro d cs ms rest h
      unfold parseMembers at h
      split at h
      · cases h
      · rename_i c r
        split at h
        · rename_i hc
          subst hc
          split at h
          · cases h
          · rename_i us r1 hs
            have hstr := StrBody_of_scanString _ _ _ _ (Nat.le_refl _) hs
            have hw1 := Ws_skipSpace r1
            split at h
            · cases h
            · rename_i c2 r2 hs2
              rw [hs2] at hw1
              split at h
              · rename_i hc2
                subst hc2
                have hw2 := Ws_skipSpace r2
                split at h
                · cases h
                · rename_i v r3 hv
                  have h3 := ihV _ _ _ _ hv
                  have hw3 := Ws_skipSpace r3
                  split at h
                  · cases h
                  · rename_i c4 r4 hs4
                    rw [hs4] at hw3
                    split at h
                    · rename_i hc4
                      subst hc4
                      have hw4 := Ws_skipSpace r4
                      split at h
                      · cases h
                      · rename_i ms1 r5 hm
                        cases h
                        exact MembersText.more d us _ v ms1 r r1 r2 _ r3 r4 _ _ hstr rfl
                          hw1 hw2 h3 hw3 hw4 (ihM _ _ _ _ hm)
                    · split at h
                      · rename_i hc4
                        cases h
                        subst hc4
                        exact MembersText.last d us _ v r r1 r2 _ r3 _ hstr rfl hw1 hw2 h3 hw3
                      · cases h
              · cases h
        · cases h
    · intro d cs es rest h
      unfold parseElems at h
      split at h
      · cases h
      · rename_i v r1 hv
        have h1 := ihV _ _ _ _ hv
        have hw1 := Ws_skipSpace r1
        split at h
        · cases h
        · rename_i c2 r2 hs2
          rw [hs2] at hw1
          split at h
          · rename_i hc2
            subst hc2
            have hw2 := Ws_skipSpace r2
            split at h
            · cases h
            · rename_i es1 r3 hm
              cases h
              exact ElemsText.more d v es1 cs r1 r2 _ _ h1 hw1 hw2 (ihE _ _ _ _ hm)
          · split at h
            · rename_i hc2
              cases h
              subst hc2
              exact ElemsText.last d v cs r1 _ h1 hw1
            · cases h

/-- The parser accepts a text exactly when it is a JSON text, and returns the
value the text stands for. -/
theorem parseJSON_iff_JsonText (body : List Char) (v : JSON) :
    parseJSON body = some v ↔ JsonText body v := by
  constructor
  · intro h
    unfold parseJSON at h
    split at h
    · cases h
    · rename_i v1 rest hv
      split at h
      · rename_i hr
        cases h
        refine ⟨skipSpace body, rest, Ws_skipSpace body, (parse_sound _).1 _ _ _ _ hv, ?_⟩
        have := Ws_skipSpace rest
        rw [hr] at this
        exact this
      · cases h
  · exact parseJSON_of_JsonText body v

/-! ## Bodies nested too deep, and bodies with one counter -/

/-- Arrays opened past the nesting limit are a syntax error, whatever
follows. -/
theorem parseValue_too_deep : ∀ (n fuel d : Nat) (rest : List Char), 0 < n →
    maxNestingDepth < d + n → parseValue fuel d (List.replicate n '[' ++ rest) = none := by
  intro n
  induction n with
  | zero => intro fuel d rest h; omega
  | succ n ih =>
    intro fuel d rest _ hd
    cases fuel with
    | zero => simp [parseValue]
    | succ f =>
      have h1 : '[' ≠ lbrace := by decide
      have h2 : '[' ≠ ']' := by decide
      simp only [List.replicate_succ, List.cons_append]
      unfold parseValue
      simp only [h1, if_false, if_true]
      split
      · rfl
      · rename_i hlim
        cases n with
        | zero => omega
        | succ m =>
          have hsk : skipSpace (List.replicate (m + 1) '[' ++ rest)
              = '[' :: (List.replicate m '[' ++ rest) := by
            simp [List.replicate_succ, skipSpace, List.dropWhile, isSpace]
          rw [hsk]
          simp only [h2, if_false]
          cases f with
          | zero => simp [parseElems]
          | succ f1 =>
            have := ih f1 (d + 1) rest (by omega) (by omega)
            simp only [List.replicate_succ, List.cons_append] at this
            unfold parseElems
            simp only [this]

theorem object_too_deep (r : List Char)
    (h : ∀ fuel, parseValue fuel 1 ('[' :: r) = none) :
    ∀ fuel, parseValue fuel 0 (lbrace :: dquote :: 'x' :: dquote :: ':' :: '[' :: r) = none := by
  intro fuel
  cases fuel with
  | zero => simp [parseValue]
  | succ f =>
    have hsk1 : skipSpace (dquote :: 'x' :: dquote :: ':' :: '[' :: r)
        = dquote :: 'x' :: dquote :: ':' :: '[' :: r :=
      skipSpace_of_Ws _ _ (Ws.done _) (NoSpaceHead_cons _ _ (by decide))
    have h1 : dquote ≠ rbrace := by decide
    have h2 : ¬ (maxNestingDepth < 0 + 1) := by decide
    unfold parseValue
    simp only [if_true, h2, if_false, hsk1, h1]
    cases f with
    | zero => simp [parseMembers]
    | succ f1 =>
      have hstr : scanString ('x' :: dquote :: ':' :: '[' :: r)
          = some ([.chr 'x'], ':' :: '[' :: r) :=
        scanString_of_StrBody _ _ _
          (StrBody.plain 'x' _ _ _ (by decide) (by decide) (by decide) (StrBody.close _))
      have hsk2 : skipSpace (':' :: '[' :: r) = ':' :: '[' :: r :=
        skipSpace_of_Ws _ _ (Ws.done _) (NoSpaceHead_cons _ _ (by decide))
      have hsk3 : skipSpace ('[' :: r) = '[' :: r :=
        skipSpace_of_Ws _ _ (Ws.done _) (NoSpaceHead_cons _ _ (by decide))
      unfold parseMembers
      simp only [if_true, hstr, hsk2, hsk3, h f1]

/-- An object whose member is nested past the limit fails the syntax check. -/
theorem deepChars_parse (n : Nat) (hn : maxNestingDepth ≤ n) :
    parseJSON (deepChars n) = none := by
  cases n with
  | zero => exact absurd hn (by decide)
  | succ m =>
    have hdeep : ∀ fuel, parseValue fuel 1
        (List.replicate (m + 1) '[' ++
          (List.replicate (m + 1) ']' ++ ",\"login\":\"deep\"\x7d".toList)) = none :=
      fun fuel => parseValue_too_deep (m + 1) fuel 1 _ (by omega) (by omega)
    rw [List.replicate_succ, List.cons_append] at hdeep
    have hobj := object_too_deep _ hdeep
    have hbody : deepChars (m + 1) = lbrace :: dquote :: 'x' :: dquote :: ':' :: '[' ::
        (List.replicate m '[' ++
          (List.replicate (m + 1) ']' ++ ",\"login\":\"deep\"\x7d".toList)) := by
      unfold deepChars
      rw [List.replicate_succ, List.cons_append]
    have hsk : skipSpace (deepChars (m + 1)) = deepChars (m + 1) := by
      rw [hbody]
      exact skipSpace_of_Ws _ _ (Ws.done _) (NoSpaceHead_cons _ _ (by decide))
    unfold parseJSON
    rw [hsk, hbody, hobj]

/-- A body that fails the syntax check makes `Unmarshal` return the syntax
error. -/
theorem Unmarshal_of_parse_none (body : String) (h : parseJSON body.toList = none) :
    Unmarshal body = .error .syntaxError := by
  simp only [Unmarshal, h]

theorem deepBody_parse : parseJSON deepBody.toList = none :=
  deepChars_parse 10000 (by decide)

theorem deepBody_fetch :
    fetchGitHubUser (Env.answering 200 deepBody) "octocat"
      = { user := none, err := some (sampleJsonError .syntaxError),
          calls := [.httpGet ("https://api.github.com/users/" ++ "octocat")] } :=
  fetch_of_decode_error (Env.answering 200 deepBody) "octocat"
    { status := 200, body := deepBody } _ rfl (Unmarshal_of_parse_none deepBody deepBody_parse)

theorem digitChar_bounds (k : Nat) (h : k < 10) :
    ('0' ≤ Nat.digitChar k ∧ Nat.digitChar k ≤ '9') ∧
    (k = 0 → Nat.digitChar k = '0') ∧ (0 < k → '1' ≤ Nat.digitChar k) := by
  interval_cases k <;> decide

/-- The digits `Nat.toDigits` produces start with a digit other than zero,
unless the number is zero and the text is `0`. -/
theorem toDigitsCore_shape : ∀ (fuel n : Nat) (ds : List Char), n < fuel →
    ∃ c rest, Nat.toDigitsCore 10 fuel n ds = c :: (rest ++ ds) ∧
      (∀ d ∈ rest, '0' ≤ d ∧ d ≤ '9') ∧ (n = 0 → c = '0' ∧ rest = []) ∧
      (0 < n → '1' ≤ c ∧ c ≤ '9') := by
  intro fuel
  induction fuel with
  | zero => intro n ds h; omega
  | succ fuel ih =>
    intro n ds h
    have hd := digitChar_bounds (n % 10) (Nat.mod_lt _ (by decide))
    by_cases h0 : n / 10 = 0
    · have hn : n % 10 = n := by omega
      refine ⟨Nat.digitChar (n % 10), [], ?_, ?_, ?_, ?_⟩
      · simp [Nat.toDigitsCore, h0]
      · intro d hd0
        cases hd0
      · intro hz
        exact ⟨hd.2.1 (by omega), rfl⟩
      · intro hp
        exact ⟨hd.2.2 (by omega), hd.1.2⟩
    · have hlt : n / 10 < fuel := by omega
      obtain ⟨c, rest, hpre, hall, _, hpos⟩ := ih (n / 10) (Nat.digitChar (n % 10) :: ds) hlt
      refine ⟨c, rest ++ [Nat.digitChar (n % 10)], ?_, ?_, ?_, ?_⟩
      · simp [Nat.toDigitsCore, h0, hpre]
      · intro d hdm
        rcases List.mem_append.mp hdm with hm | hm
        · exact hall d hm
        · rw [List.mem_singleton.mp hm]
          exact hd.1
      · intro hz
        omega
      · intro _
        exact hpos (by omega)

theorem toDigits_intPart (m : Nat) : IsIntPart (Nat.toDigits 10 m) := by
  obtain ⟨c, rest, hpre, hall, hz, hpos⟩ := toDigitsCore_shape (m + 1) m [] (by omega)
  simp only [List.append_nil] at hpre
  unfold Nat.toDigits
  rw [hpre]
  by_cases h0 : m = 0
  · obtain ⟨hc, hr⟩ := hz h0
    left
    rw [hc, hr]
  · right
    have := hpos (by omega)
    exact ⟨c, rest, rfl, this.1, this.2, hall⟩

/-- The base-10 text of an integer is a number literal. -/
theorem fmtInteger_numberLit (n : Int) : IsNumberLit (fmtInteger n) := by
  by_cases hneg : n < 0
  · refine ⟨['-'], Nat.toDigits 10 n.natAbs, [], [], ?_, Or.inr rfl, toDigits_intPart _,
      Or.inl rfl, Or.inl rfl⟩
    simp [fmtInteger, hneg]
  · refine ⟨[], Nat.toDigits 10 n.toNat, [], [], ?_, Or.inl rfl, toDigits_intPart _,
      Or.inl rfl, Or.inl rfl⟩
    simp [fmtInteger, hneg]

theorem StrBody_plain (s : List Char) (rest : List Char)
    (h : ∀ c ∈ s, 32 ≤ c.toNat ∧ c ≠ dquote ∧ c ≠ bslash) :
    StrBody (s.map StrUnit.chr) (s ++ dquote :: rest) rest := by
  induction s with
  | nil => exact StrBody.close rest
  | cons c s ih =>
    have hc := h c (List.mem_cons_self _ _)
    exact StrBody.plain c _ _ _ hc.1 hc.2.1 hc.2.2
      (ih (fun d hd => h d (List.mem_cons_of_mem _ hd)))

/-- The body with one counter is a JSON text, an object with that member. -/
theorem followersBody_text (n : Int) :
    JsonText (followersBody n).toList (.object [("followers", .number (fmtInteger n))]) := by
  refine ⟨_, [], Ws.done _, ?_, Ws.done _⟩
  refine ValueText.object 0 _ _ _ _ (by decide) (Ws.done _) ?_
  refine MembersText.last 1 ("followers".toList.map StrUnit.chr) "followers"
    (.number (fmtInteger n)) _ _ _ _ _ _ (StrBody_plain "followers".toList _ (by decide))
    (by decide) (Ws.done _) (Ws.done _) (ValueText.number 1 _ _ (fmtInteger_numberLit n))
    (Ws.done _)

/-- Every integer of the signed 64-bit range, written in base 10 as the value
of `followers`, is decoded as it is. -/
theorem followersBody_Unmarshal (n : Int) (hlo : -(2 : Int) ^ 63 ≤ n) (hhi : n < (2 : Int) ^ 63) :
    Unmarshal (followersBody n) = .ok { GitHubUser.zero with Followers := n } := by
  have hp := parseJSON_of_JsonText _ _ (followersBody_text n)
  have hf : findField "followers" = some .followers := by decide
  have hi := parseInt64_fmtInteger n hlo hhi
  simp only [Unmarshal, hp, decodeMembers, hf, storeValue, storeNumber, hi]

/-! ## The renderer -/

/-- C1: for every record, `updateUserInfo` writes to the view exactly a blank
line, the header, a blank line and the six fields in the order Login, Name,
Bio, Location, Followers, Following, each as label, colon, space, value, the
integers in base 10; for the octocat record this gives the lines
`Followers: 5000` and `Bio: ` with its trailing space. -/
theorem updateUserInfo_writes_display_format :
    (∀ (a : App) (u : GitHubUser),
      updateUserInfo a (some u) = .ok { a with textView := { a.textView with text :=
        "\nGithub User Information:\n\nLogin: " ++ u.Login ++ "\nName: " ++ u.Name
          ++ "\nBio: " ++ u.Bio ++ "\nLocation: " ++ u.Location
          ++ "\nFollowers: " ++ (toString u.Followers)
          ++ "\nFollowing: " ++ (toString u.Following) ++ "\n" } }) ∧
    (∀ a : App,
      updateUserInfo a (some octocat)
        = .ok { a with textView := { a.textView with text :=
            "\nGithub User Information:\n\nLogin: octocat\nName: The Octocat\nBio: \nLocation: San Francisco\nFollowers: 5000\nFollowing: 9\n" } }) := by
  refine ⟨fun a u => updateUserInfo_some a u, fun a => ?_⟩
  rw [updateUserInfo_some]
  have h : displayText octocat
      = "\nGithub User Information:\n\nLogin: octocat\nName: The Octocat\nBio: \nLocation: San Francisco\nFollowers: 5000\nFollowing: 9\n" := by
    decide
  rw [h]

/-! ## Error display -/

theorem error_line_ne_displayText (msg : String) (u : GitHubUser) :
    "Error: " ++ msg ≠ displayText u := by
  intro h
  have h0 := congrArg (fun s => s.data.head?) h
  simp [displayText, String.data_append] at h0

/-- C2: when the fetch fails with error `e`, whether in the transport or in
decoding, the Search handler and the Enter key handler set the view's text to
`Error: ` followed by the message of `e`, make no call of `updateUserInfo`
(the only call is the GET), and the text is not the display format of any
record. -/
theorem handlers_show_fetch_error (env : Env) (a : App) (e : GoError)
    (h : (fetchGitHubUser env a.inputField.text).err = some e) :
    searchHandler env a
      = .ok { app := { a with textView := { a.textView with text := "Error: " ++ e.Error } },
              calls := [.httpGet ("https://api.github.com/users/" ++ a.inputField.text)] } ∧
    doneFunc env a KeyEnter
      = .ok { app := { a with textView := { a.textView with text := "Error: " ++ e.Error } },
              calls := [.httpGet ("https://api.github.com/users/" ++ a.inputField.text)] } ∧
    (∀ u : GitHubUser, "Error: " ++ e.Error ≠ displayText u) := by
  have hs : searchHandler env a
      = .ok { app := { a with textView := { a.textView with text := "Error: " ++ e.Error } },
              calls := [.httpGet ("https://api.github.com/users/" ++ a.inputField.text)] } := by
    rcases fetch_cases env a.inputField.text with ⟨e1, h1⟩ | ⟨u, h1⟩
    · rw [h1] at h
      have he : e1 = e := Option.some.inj h
      rw [search_of_fetch_error env a e1 _ h1, he]
    · rw [h1] at h
      cases h
  exact ⟨hs, by rw [done_enter_eq_search, hs], error_line_ne_displayText e.Error⟩

/-- The hypothesis of C2 met by a refused connection and by a truncated body. -/
theorem handlers_show_fetch_error_witness :
    (searchHandler (Env.failing "dial tcp: connection refused") (setupUI.typed "octocat")).map
        (fun out => out.app.textView.text)
      = .ok "Error: dial tcp: connection refused" ∧
    (doneFunc (Env.answering 200 "\x7b\"login\":") (setupUI.typed "octocat") KeyEnter).map
        (fun out => out.app.textView.text)
      = .ok "Error: invalid JSON" := by
  constructor
  · rw [(handlers_show_fetch_error (Env.failing "dial tcp: connection refused")
      (setupUI.typed "octocat") { Error := "dial tcp: connection refused" } (by decide)).1]
    rfl
  · rw [(handlers_show_fetch_error (Env.answering 200 "\x7b\"login\":")
      (setupUI.typed "octocat") { Error := "invalid JSON" } (by decide)).2.1]
    rfl

/-! ## When the fetch fails -/

theorem updateUserInfo_ok_of_fetch (env : Env) (username : String) (a : App)
    (h : (fetchGitHubUser env username).err = none) :
    ∃ a1, updateUserInfo a (fetchGitHubUser env username).user = .ok a1 := by
  rcases fetch_cases env username with ⟨e, h1⟩ | ⟨u, h1⟩
  · rw [h1] at h
    cases h
  · rw [h1]
    exact ⟨_, updateUserInfo_some a u⟩

/-- C5: `fetchGitHubUser` returns an error exactly when the transport call
fails or the body fails to decode; with an error the record is nil, without one
the record is not nil.  So a body that is not valid JSON gives the syntax error
and no record, the record the handlers hand to `updateUserInfo` is never nil,
and no handler run panics. -/
theorem fetch_error_iff (env : Env) (username : String) :
    ((fetchGitHubUser env username).err.isSome ↔
      ((∃ e, env.Get ("https://api.github.com/users/" ++ username) = .error e) ∨
       (∃ resp je, env.Get ("https://api.github.com/users/" ++ username) = .ok resp ∧
          Unmarshal resp.body = .error je))) ∧
    ((fetchGitHubUser env username).err.isSome → (fetchGitHubUser env username).user = none) ∧
    ((fetchGitHubUser env username).err = none → (fetchGitHubUser env username).user.isSome) ∧
    (∀ resp, env.Get ("https://api.github.com/users/" ++ username) = .ok resp →
      parseJSON resp.body.toList = none →
      (fetchGitHubUser env username).user = none ∧
      (fetchGitHubUser env username).err = some (env.jsonError .syntaxError)) ∧
    (∀ a : App, (fetchGitHubUser env username).err = none →
      ∃ a1, updateUserInfo a (fetchGitHubUser env username).user = .ok a1) ∧
    (∀ (a : App) (ev : Event), ∃ out, step env a ev = .ok out) := by
  refine ⟨?_, ?_, ?_, ?_, ?_, ?_⟩
  · cases hg : env.Get ("https://api.github.com/users/" ++ username) with
    | error e =>
      rw [fetch_of_get_error env username e hg]
      simp
    | ok resp =>
      cases hd : Unmarshal resp.body with
      | error je =>
        rw [fetch_of_decode_error env username resp je hg hd]
        simp [hd]
      | ok u =>
        rw [fetch_of_decode_ok env username resp u hg hd]
        simp [hd]
  · rcases fetch_cases env username with ⟨e, h1⟩ | ⟨u, h1⟩ <;> rw [h1] <;> simp
  · rcases fetch_cases env username with ⟨e, h1⟩ | ⟨u, h1⟩ <;> rw [h1] <;> simp
  · intro resp hg hp
    have hd : Unmarshal resp.body = .error .syntaxError := by
      simp only [Unmarshal, hp]
    rw [fetch_of_decode_error env username resp _ hg hd]
    exact ⟨rfl, rfl⟩
  · intro a h
    exact updateUserInfo_ok_of_fetch env username a h
  · intro a ev
    cases ev with
    | search =>
      obtain ⟨cs, h, _⟩ := search_outcome env a
      exact ⟨_, h⟩
    | done key =>
      by_cases hk : key = KeyEnter
      · obtain ⟨cs, h, _⟩ := search_outcome env a
        exact ⟨_, by rw [step, hk, done_enter_eq_search, h]⟩
      · exact ⟨_, done_other env a key hk⟩
    | quit => exact ⟨_, rfl⟩

/-- C5 on a truncated body: the fetch returns the syntax error and no record,
and the Search handler does not panic. -/
theorem fetch_error_iff_witness :
    (fetchGitHubUser (Env.answering 200 "\x7b\"login\":\"octocat\"") "octocat").user = none ∧
    (fetchGitHubUser (Env.answering 200 "\x7b\"login\":\"octocat\"") "octocat").err
      = some { Error := "invalid JSON" } ∧
    ∃ out, step (Env.answering 200 "\x7b\"login\":\"octocat\"") (setupUI.typed "octocat") .search
      = .ok out :=
  ⟨((fetch_error_iff (Env.answering 200 "\x7b\"login\":\"octocat\"") "octocat").2.2.2.1
      { status := 200, body := "\x7b\"login\":\"octocat\"" } rfl rfl).1,
   ((fetch_error_iff (Env.answering 200 "\x7b\"login\":\"octocat\"") "octocat").2.2.2.1
      { status := 200, body := "\x7b\"login\":\"octocat\"" } rfl rfl).2,
   (fetch_error_iff (Env.answering 200 "\x7b\"login\":\"octocat\"") "octocat").2.2.2.2.2
      (setupUI.typed "octocat") .search⟩

/-! ## The request -/

/-- What `fetchGitHubUser` returns, from the client's answer at the address it
asks for. -/
theorem fetch_eq (env : Env) (username : String) :
    fetchGitHubUser env username
      = match env.Get ("https://api.github.com/users/" ++ username) with
        | .error e =>
          { user := none, err := some e,
            calls := [.httpGet ("https://api.github.com/users/" ++ username)] }
        | .ok resp =>
          match Unmarshal resp.body with
          | .error je =>
            { user := none, err := some (env.jsonError je),
              calls := [.httpGet ("https://api.github.com/users/" ++ username)] }
          | .ok u =>
            { user := some u, err := none,
              calls := [.httpGet ("https://api.github.com/users/" ++ username)] } := by
  cases hg : env.Get ("https://api.github.com/users/" ++ username) with
  | error e => exact fetch_of_get_error env username e hg
  | ok resp =>
    cases hd : Unmarshal resp.body with
    | error je =>
      simp only [hd]
      exact fetch_of_decode_error env username resp je hg hd
    | ok u =>
      simp only [hd]
      exact fetch_of_decode_ok env username resp u hg hd

/-- C6, as stated, fails on the code: for the user name `a/b?c#d%e f` the
address handed to the client does not parse as a URL (an invalid escape in
the fragment), so the client opens no exchange, no GET is issued and the fetch
fails with the client's error, although the network would have answered. -/
theorem no_get_counterexample :
    (restyGet (fun _ => .ok { status := 200, body := octocatBody }) sampleUrlError
      "https://api.github.com/users/a/b?c#d%e f").2 = none ∧
    fetchGitHubUser
        (Env.resty (fun _ => .ok { status := 200, body := octocatBody }) sampleUrlError
          sampleJsonError) "a/b?c#d%e f"
      = { user := none,
          err := some (sampleUrlError "https://api.github.com/users/a/b?c#d%e f"),
          calls := [.httpGet "https://api.github.com/users/a/b?c#d%e f"] } := by
  constructor <;> decide

/-- C6, amended: for every user name, `fetchGitHubUser` calls the client's
`Get` exactly once, with the fixed address followed by the user name
unchanged (empty or not, whatever characters it holds), and its result is
that call's answer, decoded; the Search handler and the Enter key handler make
that one call with the current input text and show its result.  With resty as
the client, no GET is issued when that string does not parse as a URL, and the
fetch then fails with the parse error; when it parses, the exchange is opened
with one GET for the parsed address and the fetch decodes the network's
answer. -/
theorem fetch_hands_verbatim_url (env : Env) (username : String) :
    (fetchGitHubUser env username
      = match env.Get ("https://api.github.com/users/" ++ username) with
        | .error e =>
          { user := none, err := some e,
            calls := [.httpGet ("https://api.github.com/users/" ++ username)] }
        | .ok resp =>
          match Unmarshal resp.body with
          | .error je =>
            { user := none, err := some (env.jsonError je),
              calls := [.httpGet ("https://api.github.com/users/" ++ username)] }
          | .ok u =>
            { user := some u, err := none,
              calls := [.httpGet ("https://api.github.com/users/" ++ username)] }) ∧
    (fetchGitHubUser env username).calls
      = [.httpGet ("https://api.github.com/users/" ++ username)] ∧
    (fetchGitHubUser env "").calls = [.httpGet "https://api.github.com/users/"] ∧
    (∀ a : App, ∃ out, searchHandler env a = .ok out ∧
      requests out.calls = ["https://api.github.com/users/" ++ a.inputField.text] ∧
      out.app.textView.text = lookupText (fetchGitHubUser env a.inputField.text)) ∧
    (∀ a : App, ∃ out, doneFunc env a KeyEnter = .ok out ∧
      requests out.calls = ["https://api.github.com/users/" ++ a.inputField.text] ∧
      out.app.textView.text = lookupText (fetchGitHubUser env a.inputField.text)) ∧
    (∀ (net : ParsedURL → Except GoError Response) (urlError : String → GoError),
      urlParse ("https://api.github.com/users/" ++ username) = none →
      (restyGet net urlError ("https://api.github.com/users/" ++ username)).2 = none ∧
      fetchGitHubUser (Env.resty net urlError env.jsonError) username
        = { user := none,
            err := some (urlError ("https://api.github.com/users/" ++ username)),
            calls := [.httpGet ("https://api.github.com/users/" ++ username)] }) ∧
    (∀ (net : ParsedURL → Except GoError Response) (urlError : String → GoError)
        (u : ParsedURL),
      urlParse ("https://api.github.com/users/" ++ username) = some u →
      (restyGet net urlError ("https://api.github.com/users/" ++ username)).2 = some u ∧
      fetchGitHubUser (Env.resty net urlError env.jsonError) username
        = match net u with
          | .error e =>
            { user := none, err := some e,
              calls := [.httpGet ("https://api.github.com/users/" ++ username)] }
          | .ok resp =>
            match Unmarshal resp.body with
            | .error je =>
              { user := none, err := some (env.jsonError je),
                calls := [.httpGet ("https://api.github.com/users/" ++ username)] }
            | .ok r =>
              { user := some r, err := none,
                calls := [.httpGet ("https://api.github.com/users/" ++ username)] }) := by
  have hcalls : ∀ name : String, (fetchGitHubUser env name).calls
      = [.httpGet ("https://api.github.com/users/" ++ name)] := by
    intro name
    rcases fetch_cases env name with ⟨e, h1⟩ | ⟨u, h1⟩ <;> rw [h1]
  refine ⟨fetch_eq env username, hcalls username, hcalls "", ?_, ?_, ?_, ?_⟩
  · intro a
    obtain ⟨cs, h, hr⟩ := search_outcome env a
    exact ⟨_, h, hr, rfl⟩
  · intro a
    obtain ⟨cs, h, hr⟩ := search_outcome env a
    exact ⟨_, (done_enter_eq_search env a).trans h, hr, rfl⟩
  · intro net urlError hp
    refine ⟨by simp only [restyGet, hp], ?_⟩
    rw [fetch_eq]
    simp only [Env.resty, restyGet, hp]
  · intro net urlError u hp
    refine ⟨by simp only [restyGet, hp], ?_⟩
    rw [fetch_eq]
    simp only [Env.resty, restyGet, hp]

/-- C6 amended, on an address that does not parse and on one that does. -/
theorem fetch_hands_verbatim_url_witness :
    ((restyGet (fun _ => .ok { status := 200, body := octocatBody }) sampleUrlError
        ("https://api.github.com/users/" ++ "%")).2 = none ∧
      fetchGitHubUser
          (Env.resty (fun _ => .ok { status := 200, body := octocatBody }) sampleUrlError
            (Env.failing "x").jsonError) "%"
        = { user := none,
            err := some (sampleUrlError ("https://api.github.com/users/" ++ "%")),
            calls := [.httpGet ("https://api.github.com/users/" ++ "%")] }) ∧
    (restyGet (fun _ => .ok { status := 200, body := octocatBody }) sampleUrlError
        ("https://api.github.com/users/" ++ "octocat")).2
      = some { base := "https://api.github.com/users/octocat", query := none } :=
  ⟨(fetch_hands_verbatim_url (Env.failing "x") "%").2.2.2.2.2.1
      (fun _ => .ok { status := 200, body := octocatBody }) sampleUrlError (by decide),
   ((fetch_hands_verbatim_url (Env.failing "x") "octocat").2.2.2.2.2.2
      (fun _ => .ok { status := 200, body := octocatBody }) sampleUrlError
      { base := "https://api.github.com/users/octocat", query := none } (by decide)).1⟩

/-! ## Replacement of the displayed text -/

/-- C7: whatever text the view held before, after a lookup (by Search or by
Enter) it holds the text of that lookup's fetch result alone, the display
format of the record on success and `Error: ` with the message on failure;
after two lookups in a row the view holds the text of the second one, which on
success is the display format of the second record. -/
theorem lookup_replaces_output (env : Env) (a : App) (prior : String) :
    (∃ out, searchHandler env { a with textView := { a.textView with text := prior } } = .ok out ∧
      out.app.textView.text = lookupText (fetchGitHubUser env a.inputField.text)) ∧
    (∃ out, doneFunc env { a with textView := { a.textView with text := prior } } KeyEnter
        = .ok out ∧
      out.app.textView.text = lookupText (fetchGitHubUser env a.inputField.text)) ∧
    (∀ e, (fetchGitHubUser env a.inputField.text).err = some e →
      lookupText (fetchGitHubUser env a.inputField.text) = "Error: " ++ e.Error) ∧
    (∀ u, (fetchGitHubUser env a.inputField.text).user = some u →
      lookupText (fetchGitHubUser env a.inputField.text) = displayText u) ∧
    (∀ env2 : Env, ∃ out1 out2,
      searchHandler env { a with textView := { a.textView with text := prior } } = .ok out1 ∧
      searchHandler env2 out1.app = .ok out2 ∧
      out2.app.textView.text = lookupText (fetchGitHubUser env2 a.inputField.text) ∧
      (∀ u2, (fetchGitHubUser env2 a.inputField.text).user = some u2 →
        out2.app.textView.text = displayText u2)) := by
  have hok : ∀ (en : Env) u, (fetchGitHubUser en a.inputField.text).user = some u →
      lookupText (fetchGitHubUser en a.inputField.text) = displayText u := by
    intro en u hu
    rcases fetch_cases en a.inputField.text with ⟨e, h1⟩ | ⟨u1, h1⟩
    · rw [h1] at hu
      cases hu
    · rw [h1] at hu ⊢
      cases hu
      rfl
  refine ⟨?_, ?_, ?_, hok env, ?_⟩
  · obtain ⟨cs, h, _⟩ := search_outcome env { a with textView := { a.textView with text := prior } }
    exact ⟨_, h, rfl⟩
  · obtain ⟨cs, h, _⟩ := search_outcome env { a with textView := { a.textView with text := prior } }
    exact ⟨_, (done_enter_eq_search env _).trans h, rfl⟩
  · intro e he
    simp only [lookupText, he]
  · intro env2
    obtain ⟨cs, h, _⟩ := search_outcome env { a with textView := { a.textView with text := prior } }
    obtain ⟨cs2, h2, _⟩ := search_outcome env2
      { a with textView := { a.textView with
          text := lookupText (fetchGitHubUser env a.inputField.text) } }
    exact ⟨_, _, h, h2, rfl, fun u2 hu => hok env2 u2 hu⟩

/-- C7 on two lookups: after an answer for octocat and then a not-found
answer, the view shows the second, empty record. -/
theorem lookup_replaces_output_witness :
    ∃ out1 out2,
      searchHandler (Env.answering 200 octocatBody)
        { (setupUI.typed "octocat") with textView := { title := " User Information ", text := "old" } }
        = .ok out1 ∧
      searchHandler (Env.answering 404 notFoundBody) out1.app = .ok out2 ∧
      out2.app.textView.text = displayText GitHubUser.zero := by
  obtain ⟨out1, out2, h1, h2, _, h4⟩ :=
    (lookup_replaces_output (Env.answering 200 octocatBody) (setupUI.typed "octocat") "old").2.2.2.2
      (Env.answering 404 notFoundBody)
  exact ⟨out1, out2, h1, h2, h4 GitHubUser.zero (by decide)⟩

/-! ## The handlers: equivalence and frame -/

/-- C10: the Search button handler and the done handler called with the Enter
key are the same function of the state and the network: same fetch, same
resulting state, same calls; the done handler called with any other key makes
no call and leaves the state as it was. -/
theorem enter_equals_search (env : Env) (a : App) :
    doneFunc env a KeyEnter = searchHandler env a ∧
    step env a (.done KeyEnter) = step env a .search ∧
    (∀ key : Key, key ≠ KeyEnter → doneFunc env a key = .ok { app := a, calls := [] }) :=
  ⟨done_enter_eq_search env a, done_enter_eq_search env a, fun key h => done_other env a key h⟩

/-- C10 for the Tab key (9): no fetch, state unchanged. -/
theorem enter_equals_search_witness :
    doneFunc (Env.answering 200 octocatBody) (setupUI.typed "octocat") 9
      = .ok { app := setupUI.typed "octocat", calls := [] } :=
  (enter_equals_search (Env.answering 200 octocatBody) (setupUI.typed "octocat")).2.2 9 (by decide)

/-- C8: every transition runs to completion, leaves the input text as it was,
and changes nothing of the widgets other than the text of the view: the
state after is the state before with at most that text replaced.  Quit (like
a key other than Enter) leaves even that text as it was; its only effect is
the call that stops the application. -/
theorem step_changes_only_output (env : Env) (a : App) (ev : Event) :
    ∃ out, step env a ev = .ok out ∧
      out.app.inputField.text = a.inputField.text ∧
      out.app = { a with textView := { a.textView with text := out.app.textView.text } } ∧
      (ev = .quit → out.app = a ∧ out.calls = [.appStop]) ∧
      (∀ key, ev = .done key → key ≠ KeyEnter → out.app = a ∧ out.calls = []) := by
  cases ev with
  | search =>
    obtain ⟨cs, h, _⟩ := search_outcome env a
    exact ⟨_, h, rfl, rfl, fun h => (by cases h), fun key h => (by cases h)⟩
  | done key =>
    by_cases hk : key = KeyEnter
    · obtain ⟨cs, h, _⟩ := search_outcome env a
      subst hk
      exact ⟨_, (done_enter_eq_search env a).trans h, rfl, rfl, fun h => (by cases h),
        fun key h hne => absurd (Event.done.inj h).symm hne⟩
    · exact ⟨{ app := a, calls := [] }, done_other env a key hk, rfl, rfl,
        fun h => (by cases h), fun _ _ _ => ⟨rfl, rfl⟩⟩
  | quit =>
    exact ⟨{ app := a, calls := [.appStop] }, rfl, rfl, rfl, fun _ => ⟨rfl, rfl⟩,
      fun key h => (by cases h)⟩

/-- C8 after a successful lookup, after a failed one and after Quit: the input
text is still what the user typed. -/
theorem step_changes_only_output_witness :
    (∃ out, step (Env.answering 200 octocatBody) (setupUI.typed "octocat") .search = .ok out ∧
      out.app.inputField.text = "octocat") ∧
    (∃ out, step (Env.failing "timeout") (setupUI.typed "octocat") (.done KeyEnter) = .ok out ∧
      out.app.inputField.text = "octocat") ∧
    (∃ out, step (Env.failing "timeout") (setupUI.typed "octocat") .quit = .ok out ∧
      out.app = setupUI.typed "octocat" ∧ out.calls = [.appStop]) := by
  refine ⟨?_, ?_, ?_⟩
  · obtain ⟨out, h, ht, _⟩ :=
      step_changes_only_output (Env.answering 200 octocatBody) (setupUI.typed "octocat") .search
    exact ⟨out, h, ht⟩
  · obtain ⟨out, h, ht, _⟩ :=
      step_changes_only_output (Env.failing "timeout") (setupUI.typed "octocat") (.done KeyEnter)
    exact ⟨out, h, ht⟩
  · obtain ⟨out, h, _, _, hq, _⟩ :=
      step_changes_only_output (Env.failing "timeout") (setupUI.typed "octocat") .quit
    exact ⟨out, h, hq rfl⟩

/-! ## Decoding a profile -/

/-- C3, as stated, fails on the code, in three ways.  The key `LOGIN` is not
one of the six keys, yet its value is stored in `Login`.  An integer one past
the largest `int` is an integer, yet the fetch fails on it.  And the object of
`deepBody` is well-formed JSON whose only recognised key holds a string, yet
the fetch fails on it, because it is nested more than 10000 deep. -/
theorem decode_claim_counterexample :
    fetchGitHubUser (Env.answering 200 "\x7b\"LOGIN\":\"octocat\"\x7d") "octocat"
      = { user := some { GitHubUser.zero with Login := "octocat" }, err := none,
          calls := [.httpGet "https://api.github.com/users/octocat"] } ∧
    fetchGitHubUser (Env.answering 200 "\x7b\"followers\":9223372036854775808\x7d") "octocat"
      = { user := none,
          err := some (sampleJsonError
            (.unmarshalType "number 9223372036854775808" "followers")),
          calls := [.httpGet "https://api.github.com/users/octocat"] } ∧
    fetchGitHubUser (Env.answering 200 deepBody) "octocat"
      = { user := none, err := some (sampleJsonError .syntaxError),
          calls := [.httpGet ("https://api.github.com/users/" ++ "octocat")] } :=
  ⟨by decide, by decide, deepBody_fetch⟩

/-- C3, amended: when the body is a JSON text in the sense of RFC 8259, nested
at most 10000 containers deep, whose value is an object in which every member
whose key is one of the six keys up to letter case holds `null`, a string for a
string field, or a base-10 integer literal within the signed 64-bit range for
an integer field, the fetch succeeds; each field of the record is the last
non-null value given under its key, or the zero value when there is none;
members under other keys are ignored; and the lookup shows the display format
of that record. -/
theorem fetch_decodes_wellTyped_object (env : Env) (username : String) (status : Nat)
    (body : String) (ms : List (String × JSON))
    (hget : env.Get ("https://api.github.com/users/" ++ username)
      = .ok { status := status, body := body })
    (hdoc : JsonText body.toList (.object ms))
    (hty : ∀ key v f, (key, v) ∈ ms → keyMatches f key = true → WellTyped f v) :
    ∃ u, fetchGitHubUser env username
        = { user := some u, err := none,
            calls := [.httpGet ("https://api.github.com/users/" ++ username)] } ∧
      (∀ f, FieldSpec ms u f) ∧
      (∀ a : App, a.inputField.text = username →
        searchHandler env a
          = .ok { app := { a with textView := { a.textView with text := displayText u } },
                  calls := [.httpGet ("https://api.github.com/users/" ++ username),
                            .updateUserInfo (some u)] }) := by
  obtain ⟨u, hu, hspec⟩ := decodeMembers_spec ms GitHubUser.zero hty
  have hparse := parseJSON_of_JsonText _ _ hdoc
  have hd : Unmarshal body = .ok u := by
    simp only [Unmarshal, hparse, hu]
  have hfetch := fetch_of_decode_ok env username _ u hget hd
  refine ⟨u, hfetch, ?_, ?_⟩
  · intro f
    have := hspec f
    simp only [FieldSpec]
    cases hl : lastNonNull f ms with
    | none =>
      rw [hl] at this
      exact this
    | some w =>
      rw [hl] at this
      exact this
  · intro a ha
    subst ha
    rw [search_of_fetch_ok env a u _ hfetch]
    rfl

/-- The members of `octocatBody`. -/
theorem octocatBody_parse :
    parseJSON octocatBody.toList = some (.object
      [("login", .string "octocat"), ("name", .string "The Octocat"), ("bio", .string ""),
       ("location", .string "San Francisco"), ("followers", .number "5000".toList),
       ("following", .number "9".toList)]) := by
  rfl

/-- C3 on the body of the concrete scenario: its hypotheses hold, and the
fetch and the lookup give the octocat record and its display text. -/
theorem fetch_decodes_wellTyped_object_witness :
    (∃ u, fetchGitHubUser (Env.answering 200 octocatBody) "octocat"
        = { user := some u, err := none,
            calls := [.httpGet ("https://api.github.com/users/" ++ "octocat")] } ∧
      (∀ f, FieldSpec
        [("login", .string "octocat"), ("name", .string "The Octocat"), ("bio", .string ""),
         ("location", .string "San Francisco"), ("followers", .number "5000".toList),
         ("following", .number "9".toList)] u f) ∧
      (∀ a : App, a.inputField.text = "octocat" →
        searchHandler (Env.answering 200 octocatBody) a
          = .ok { app := { a with textView := { a.textView with text := displayText u } },
                  calls := [.httpGet ("https://api.github.com/users/" ++ "octocat"),
                            .updateUserInfo (some u)] })) ∧
    (fetchGitHubUser (Env.answering 200 octocatBody) "octocat").user = some octocat := by
  refine ⟨fetch_decodes_wellTyped_object (Env.answering 200 octocatBody) "octocat" 200
    octocatBody _ rfl ((parseJSON_iff_JsonText _ _).mp octocatBody_parse) ?_, by decide⟩
  intro key v f hm hk
  simp only [List.mem_cons, Prod.mk.injEq, List.mem_singleton, List.mem_nil_iff, or_false] at hm
  have h5000 : IntLiteral "5000".toList 5000 :=
    ⟨by norm_num, by norm_num, Or.inl (by decide)⟩
  have h9 : IntLiteral "9".toList 9 :=
    ⟨by norm_num, by norm_num, Or.inl (by decide)⟩
  rcases hm with ⟨rfl, rfl⟩ | ⟨rfl, rfl⟩ | ⟨rfl, rfl⟩ | ⟨rfl, rfl⟩ | ⟨rfl, rfl⟩ | ⟨rfl, rfl⟩
  · cases f <;> first | rfl | exact absurd hk (by decide)
  · cases f <;> first | rfl | exact absurd hk (by decide)
  · cases f <;> first | rfl | exact absurd hk (by decide)
  · cases f <;> first | rfl | exact absurd hk (by decide)
  · cases f <;> first | exact ⟨rfl, 5000, h5000⟩ | exact absurd hk (by decide)
  · cases f <;> first | exact ⟨rfl, 9, h9⟩ | exact absurd hk (by decide)

/-! ## The status code -/

/-- C4: when the transport returns a response, `fetchGitHubUser` decodes its
body whatever the status code: the result is a function of the body alone, so
two responses with the same body and different statuses give the same result.
For the not-found body the fetch succeeds with the zero record, and the lookup
shows the six labels with empty strings and zeros, not an error. -/
theorem fetch_ignores_status (env : Env) (username : String) (status : Nat) (body : String)
    (hget : env.Get ("https://api.github.com/users/" ++ username)
      = .ok { status := status, body := body }) :
    (fetchGitHubUser env username
      = match Unmarshal body with
        | .ok u => { user := some u, err := none,
                     calls := [.httpGet ("https://api.github.com/users/" ++ username)] }
        | .error je => { user := none, err := some (env.jsonError je),
                         calls := [.httpGet ("https://api.github.com/users/" ++ username)] }) ∧
    (∀ (env2 : Env) (status2 : Nat),
      env2.Get ("https://api.github.com/users/" ++ username)
        = .ok { status := status2, body := body } →
      env2.jsonError = env.jsonError →
      fetchGitHubUser env2 username = fetchGitHubUser env username) ∧
    (body = notFoundBody →
      fetchGitHubUser env username
        = { user := some { Login := "", Name := "", Bio := "", Location := "",
                           Followers := 0, Following := 0 },
            err := none,
            calls := [.httpGet ("https://api.github.com/users/" ++ username)] } ∧
      ∀ a : App, a.inputField.text = username →
        ∃ out, searchHandler env a = .ok out ∧ out.app.textView.text =
          "\nGithub User Information:\n\nLogin: \nName: \nBio: \nLocation: \nFollowers: 0\nFollowing: 0\n") := by
  have hmain : ∀ (en : Env) (st : Nat),
      en.Get ("https://api.github.com/users/" ++ username) = .ok { status := st, body := body } →
      fetchGitHubUser en username
        = match Unmarshal body with
          | .ok u => { user := some u, err := none,
                       calls := [.httpGet ("https://api.github.com/users/" ++ username)] }
          | .error je => { user := none, err := some (en.jsonError je),
                           calls := [.httpGet ("https://api.github.com/users/" ++ username)] } := by
    intro en st hg
    cases hd : Unmarshal body with
    | error je => exact fetch_of_decode_error en username _ je hg hd
    | ok u => exact fetch_of_decode_ok en username _ u hg hd
  refine ⟨hmain env status hget, ?_, ?_⟩
  · intro env2 status2 hget2 hje
    rw [hmain env status hget, hmain env2 status2 hget2, hje]
  · intro hb
    have hd : Unmarshal body = .ok GitHubUser.zero := by
      rw [hb]
      rfl
    have hfetch := fetch_of_decode_ok env username _ GitHubUser.zero hget hd
    refine ⟨hfetch, ?_⟩
    intro a ha
    subst ha
    refine ⟨_, search_of_fetch_ok env a GitHubUser.zero _ hfetch, ?_⟩
    show displayText GitHubUser.zero = _
    decide

/-- C4 on a 404 answer with the not-found body and the empty user name. -/
theorem fetch_ignores_status_witness :
    fetchGitHubUser (Env.answering 404 notFoundBody) ""
      = { user := some { Login := "", Name := "", Bio := "", Location := "",
                         Followers := 0, Following := 0 },
          err := none,
          calls := [.httpGet ("https://api.github.com/users/" ++ "")] } ∧
    fetchGitHubUser (Env.answering 200 notFoundBody) ""
      = fetchGitHubUser (Env.answering 404 notFoundBody) "" :=
  ⟨((fetch_ignores_status (Env.answering 404 notFoundBody) "" 404 notFoundBody rfl).2.2 rfl).1,
   (fetch_ignores_status (Env.answering 404 notFoundBody) "" 404 notFoundBody rfl).2.1
     (Env.answering 200 notFoundBody) 200 rfl rfl⟩

/-! ## The range of the counters -/

/-- C9, as stated, fails on the code: a body giving `followers` as -1 is
decoded, and the record's `Followers` is -1. -/
theorem negative_followers_counterexample :
    fetchGitHubUser (Env.answering 200 "\x7b\"followers\":-1\x7d") "octocat"
      = { user := some { GitHubUser.zero with Followers := -1 }, err := none,
          calls := [.httpGet "https://api.github.com/users/octocat"] } ∧
    ¬ (0 ≤ ({ GitHubUser.zero with Followers := -1 } : GitHubUser).Followers) := by
  constructor <;> decide

/-- C9, amended: in every successfully fetched record `Followers` and
`Following` are signed 64-bit integers, at least -2^63 and below 2^63; and
every integer of that range, the negative ones included, is decoded as it is:
the body `\x7b"followers":n\x7d` is fetched with `Followers` equal to `n`. -/
theorem fetched_counters_in_int64_range (env : Env) (username : String) (u : GitHubUser)
    (h : (fetchGitHubUser env username).user = some u) :
    ((-(2 : Int) ^ 63 ≤ u.Followers ∧ u.Followers < (2 : Int) ^ 63) ∧
     (-(2 : Int) ^ 63 ≤ u.Following ∧ u.Following < (2 : Int) ^ 63)) ∧
    (∀ (n : Int) (status : Nat), -(2 : Int) ^ 63 ≤ n → n < (2 : Int) ^ 63 →
      fetchGitHubUser (Env.answering status (followersBody n)) username
        = { user := some { GitHubUser.zero with Followers := n }, err := none,
            calls := [.httpGet ("https://api.github.com/users/" ++ username)] }) := by
  obtain ⟨resp, _, hd⟩ := fetch_user_some env username u h
  refine ⟨Unmarshal_range resp.body u hd, ?_⟩
  intro n status hlo hhi
  exact fetch_of_decode_ok (Env.answering status (followersBody n)) username
    { status := status, body := followersBody n } _ rfl (followersBody_Unmarshal n hlo hhi)

/-- C9 amended, on the octocat body, on a negative count and on the smallest
`int`. -/
theorem fetched_counters_in_int64_range_witness :
    ((-(2 : Int) ^ 63 ≤ octocat.Followers ∧ octocat.Followers < (2 : Int) ^ 63) ∧
     (-(2 : Int) ^ 63 ≤ octocat.Following ∧ octocat.Following < (2 : Int) ^ 63)) ∧
    fetchGitHubUser (Env.answering 200 (followersBody (-7))) "octocat"
      = { user := some { GitHubUser.zero with Followers := -7 }, err := none,
          calls := [.httpGet ("https://api.github.com/users/" ++ "octocat")] } ∧
    (fetchGitHubUser (Env.answering 200 "\x7b\"following\":-9223372036854775808\x7d") "x").user
      = some { GitHubUser.zero with Following := -9223372036854775808 } :=
  ⟨(fetched_counters_in_int64_range (Env.answering 200 octocatBody) "octocat" octocat
      (by decide)).1,
   (fetched_counters_in_int64_range (Env.answering 200 octocatBody) "octocat" octocat
      (by decide)).2 (-7) 200 (by norm_num) (by norm_num),
   by decide⟩

end GithubCli
